import Mathlib

/-!
Verification of the metadata cache (`influxdb3_cache/src/meta_cache/cache.rs`).

The cache stores the distinct value combinations seen on a configured list of
string-typed columns of a table, in a tree of `BTreeMap`s keyed by `Value`
(an interned string), each entry carrying its last-seen nanosecond timestamp
and an optional child node.

Shallow embedding conventions used throughout this file:

* `Value` (`Arc<str>`) is modelled as `String`; the `BTreeMap` of a `Node` is
  modelled as a `List` of `(value, last_seen_ns, child)` triples kept in
  ascending key order by the insertion routine, matching `BTreeMap` iteration
  order.
* `i64` timestamps are modelled as `Int` (the claims never exercise i64
  overflow, and `Time::checked_sub` cannot underflow on `Int`).
* The `BinaryHeap<i64>` max-heap used by `find_n_oldest` is modelled as a list
  kept sorted in descending order: `peek` is `head?`, `pop` drops the head and
  `push` inserts in order; this is observationally the heap's behaviour.
* The `time_provider` is modelled by passing `now : Int` (the value of
  `time_provider.now().timestamp_nanos()`) to the operations that read the
  clock.
* The arrow `RecordBatch` produced by `to_record_batch` is modelled as the
  list of per-column string-builder contents plus the emitted row count.
* The `unwrap` in `remove_n_oldest` is modelled by an `Option` result
  (`none` = panic); the two `expect`s in `evaluate_predicates` fire only when
  the predicate/builder slices are shorter than the tree is deep, which never
  happens for the sizes `to_record_batch` passes; those branches return the
  neutral result here.
* `Row.fields` carries only string-kinded field data (`Value::from`
  panics on any other `FieldData`, and construction-time validation restricts
  cached columns to tags and string fields).
-/

namespace MetaCacheVerif

/-- A node of the cache tree (source: `struct Node(BTreeMap<Value, (i64, Option<Node>)>)`).
Each entry is `(value, last_seen_ns, child)`; the list is kept in ascending
value order. -/
inductive Node : Type where
  | mk : List (String × Int × Option Node) → Node

/-- The entry list of a node (the underlying `BTreeMap` contents in key order). -/
def Node.entries : Node → List (String × Int × Option Node)
  | .mk es => es

/-- A predicate over one column position (source: `enum Predicate`). The
`BTreeSet<Value>` is modelled as the list of its elements. -/
inductive Predicate where
  | In : List String → Predicate
  | NotIn : List String → Predicate

/-- `BTreeMap::get` / `get_key_value` on the entry list. -/
def lookupEntries (v : String) : List (String × Int × Option Node) → Option (Int × Option Node)
  | [] => none
  | (w, t, c) :: rest => if w = v then some (t, c) else lookupEntries v rest

/-- Key lookup in a node's map. -/
def Node.lookup (n : Node) (v : String) : Option (Int × Option Node) :=
  lookupEntries v n.entries

/-- Insertion of an absent key into the ordered entry list (the insert half of
`BTreeMap::entry(..).or_insert_with(..)`); keeps ascending key order. -/
def insertEntries (v : String) (t : Int) (c : Option Node) :
    List (String × Int × Option Node) → List (String × Int × Option Node)
  | [] => [(v, t, c)]
  | (w, tw, cw) :: rest =>
    if v < w then (v, t, c) :: (w, tw, cw) :: rest
    else (w, tw, cw) :: insertEntries v t c rest

/-- In-place update of the value stored under an existing key (the mutation of
`last_seen` and of the child performed through the `Entry` reference). -/
def updateEntries (v : String) (t : Int) (c : Option Node) :
    List (String × Int × Option Node) → List (String × Int × Option Node)
  | [] => []
  | (w, tw, cw) :: rest =>
    if w = v then (w, t, c) :: rest else (w, tw, cw) :: updateEntries v t c rest

mutual

/-- Source: `Node::cardinality` — total count of unique value combinations
(leaves) under this node; interior entries contribute their child's count. -/
def Node.cardinality : Node → Nat
  | .mk es => cardEntries es

/-- Entry-list part of `Node::cardinality` (`values().map(..).sum()`). -/
def cardEntries : List (String × Int × Option Node) → Nat
  | [] => 0
  | (_, _, none) :: rest => 1 + cardEntries rest
  | (_, _, some child) :: rest => Node.cardinality child + cardEntries rest

end

mutual

/-- Source: `Node::remove_before`. The Rust function mutates in place and
returns `true` iff the node's map is empty afterwards; here the mutated node is
returned, and the returned boolean is `(result).entries.isEmpty`. The retain
predicate is translated literally:
`*last_seen > time_ns || node.as_mut().is_some_and(|node| node.remove_before(time_ns))`,
so an entry is kept when its `last_seen` is beyond `time_ns` (short-circuiting,
without descending into its child), or when it has a child that became empty
after the recursive call (the retained entry keeps the mutated child). -/
def Node.remove_before (time_ns : Int) : Node → Node
  | .mk es => .mk (removeBeforeEntries time_ns es)

/-- Entry-list part of `Node::remove_before` (the `retain` pass). -/
def removeBeforeEntries (time_ns : Int) :
    List (String × Int × Option Node) → List (String × Int × Option Node)
  | [] => []
  | (v, last_seen, child) :: rest =>
    if time_ns < last_seen then
      (v, last_seen, child) :: removeBeforeEntries time_ns rest
    else
      match child with
      | none => removeBeforeEntries time_ns rest
      | some c =>
        let c' := c.remove_before time_ns
        if c'.entries.isEmpty then
          (v, last_seen, some c') :: removeBeforeEntries time_ns rest
        else
          removeBeforeEntries time_ns rest

end

/-- `BinaryHeap::push` on the descending-sorted-list model of the max-heap. -/
def heapPush (x : Int) : List Int → List Int
  | [] => [x]
  | y :: rest => if y < x then x :: y :: rest else y :: heapPush x rest

mutual

/-- Source: `Node::find_n_oldest` — populate a max-heap with up to
`n_to_remove` smallest leaf timestamps. Branch entries are not pushed (their
time is redundant with their subtree); a leaf time is pushed while the heap is
under capacity, and otherwise replaces the heap maximum only when strictly
smaller than it. -/
def Node.find_n_oldest (n_to_remove : Nat) : Node → List Int → List Int
  | .mk es, times_heap => findNOldestEntries n_to_remove es times_heap

/-- Entry-list part of `Node::find_n_oldest` (the `for_each` pass). -/
def findNOldestEntries (n_to_remove : Nat) :
    List (String × Int × Option Node) → List Int → List Int
  | [], times_heap => times_heap
  | (_, last_seen, child) :: rest, times_heap =>
    let times_heap' :=
      match child with
      | some c => c.find_n_oldest n_to_remove times_heap
      | none =>
        if times_heap.length < n_to_remove then heapPush last_seen times_heap
        else
          match times_heap with
          | [] => times_heap
          | newest :: tail =>
            if last_seen < newest then heapPush last_seen tail else times_heap
    findNOldestEntries n_to_remove rest times_heap'

end

/-- Source: `Node::remove_n_oldest`. `none` models the panic of
`times.peek().unwrap()` on an empty heap; otherwise the node after
`remove_before(*times.peek().unwrap())` is returned. -/
def Node.remove_n_oldest (node : Node) (n_to_remove : Nat) : Option Node :=
  let times := node.find_n_oldest n_to_remove []
  match times.head? with
  | none => none
  | some cutoff => some (node.remove_before cutoff)

/-- Source: `Node::evaluate_predicate` — values (with their next nodes)
admitted by one predicate at this node. `In` iterates the given list doing
lookups; `NotIn` scans the map. Expired entries are excluded by both. -/
def Node.evaluate_predicate (n : Node) (expired_time_ns : Int) (predicate : Predicate) :
    List (String × Option Node) :=
  match predicate with
  | .In in_list =>
    in_list.filterMap (fun v =>
      (n.lookup v).bind (fun tc => if expired_time_ns < tc.1 then some (v, tc.2) else none))
  | .NotIn not_in_set =>
    (n.entries.filter (fun e => decide (expired_time_ns < e.2.1) && !(not_in_set.contains e.1))).map
      (fun e => (e.1, e.2.2))

/-- The candidate set used at one level of `Node::evaluate_predicates`: the
predicate's result when one is present, otherwise every non-expired entry. -/
def candidateList (expired_time_ns : Int) (p : Option Predicate) (node : Node) :
    List (String × Option Node) :=
  match p with
  | some predicate => node.evaluate_predicate expired_time_ns predicate
  | none =>
    (node.entries.filter (fun e => decide (expired_time_ns < e.2.1))).map (fun e => (e.1, e.2.2))

/-- One step of the builder-filling loop in `Node::evaluate_predicates`,
parameterized by the recursive evaluation `go` of the next level: a leaf
candidate appends its value once; a branch candidate first evaluates its
subtree into the tail builders and then appends its value once per emitted
row (skipping the branch when the subtree emitted nothing). -/
def evalStepWith (go : Node → List (List String) → Nat × List (List String))
    (acc : Nat × List String × List (List String)) (vn : String × Option Node) :
    Nat × List String × List (List String) :=
  match vn.2 with
  | some child =>
    let r := go child acc.2.2
    if 0 < r.1 then (acc.1 + r.1, acc.2.1 ++ List.replicate r.1 vn.1, r.2)
    else (acc.1, acc.2.1, r.2)
  | none => (acc.1 + 1, acc.2.1 ++ [vn.1], acc.2.2)

/-- Source: `Node::evaluate_predicates`. Builders are the per-column string
builder contents; the result is `(number of values emitted, final builders)`.
For a branch candidate whose subtree emitted `count > 0` rows the candidate's
value is appended `count` times to this level's builder (the
`append_block` / `try_append_view` loop); a leaf candidate appends its value
once. The `expect`s on empty predicate/builder slices (which cannot fire for
the slices `to_record_batch` passes) are modelled by the neutral result. -/
def Node.evaluate_predicates (expired_time_ns : Int) :
    List (Option Predicate) → Node → List (List String) → Nat × List (List String)
  | [], _, builders => (0, builders)
  | p :: next_predicates, node, builders =>
    let values_and_nodes := candidateList expired_time_ns p node
    match builders with
    | [] => (0, [])
    | builder :: next_builders =>
      let r := values_and_nodes.foldl
        (evalStepWith (fun child bs =>
          Node.evaluate_predicates expired_time_ns next_predicates child bs))
        (0, builder, next_builders)
      (r.1, r.2.1 :: r.2.2)

/-- Arrow data types that can appear in the cache's output schema (the source
only ever constructs `DataType::Utf8View` for it). -/
inductive DataType where
  | utf8View
deriving DecidableEq

/-- One field of the cache's fixed output schema
(`Field::new(name, data_type, nullable)`). -/
structure SchemaField where
  name : String
  data_type : DataType
  nullable : Bool
deriving DecidableEq

/-- Source: `struct MetaCache`. `state.cardinality` is flattened into the
`cardinality` field; the `time_provider` is modelled by `now` parameters. -/
structure MetaCache where
  max_cardinality : Nat
  /-- `max_age` as a nanosecond duration (`Duration` in the source). -/
  max_age : Int
  schema : List SchemaField
  cardinality : Nat
  column_ids : List Nat
  data : Node

/-- Source: `influxdb3_wal::Field` — one field of an ingested row, restricted
to the string-kinded `FieldData` (key/tag/string) that `Value::from` accepts. -/
structure Field where
  id : Nat
  value : String

/-- Source: `influxdb3_wal::Row` — an ingested row: a timestamp plus fields. -/
structure Row where
  time : Int
  fields : List Field

/-- The descent loop inside `MetaCache::push` (the `while let` over the value
iterator): walk the tuple of values down the tree, creating an entry on a miss
(with a fresh child node exactly when more values remain, and raising the
`is_new` flag), setting `last_seen` to the row time along the way, and
stopping early at an entry that has no child node. Returns the rebuilt node
and the `is_new` flag. -/
def Node.push_values (t : Int) : List String → Node → Node × Bool
  | [], n => (n, false)
  | v :: rest, n =>
    match n.lookup v with
    | none =>
      match rest with
      | [] => (.mk (insertEntries v t none n.entries), true)
      | _ :: _ =>
        let child := Node.push_values t rest (.mk [])
        (.mk (insertEntries v t (some child.1) n.entries), true)
    | some (_, none) => (.mk (updateEntries v t none n.entries), false)
    | some (_, some c) =>
      let child := Node.push_values t rest c
      (.mk (updateEntries v t (some child.1) n.entries), child.2)

/-- The value-collection loop of `MetaCache::push`: for every cached column
id in order, the value of the row's matching field; `none` (ignore the row)
as soon as one is missing. -/
def getValues (fields : List Field) : List Nat → Option (List String)
  | [] => some []
  | id :: rest =>
    match (fields.find? (fun f => f.id == id)).map (fun f => f.value) with
    | none => none
    | some v => (getValues fields rest).map (fun vs => v :: vs)

/-- Source: `MetaCache::push`. Collect the value of every cached column from
the row (ignoring the row if any is missing), insert the tuple with the row's
timestamp, and bump the cardinality counter when a new leaf was created. -/
def MetaCache.push (cache : MetaCache) (row : Row) : MetaCache :=
  match getValues row.fields cache.column_ids with
  | none => cache
  | some values =>
    let r := cache.data.push_values row.time values
    { cache with
      data := r.1
      cardinality := if r.2 then cache.cardinality + 1 else cache.cardinality }

/-- Source: `MetaCache::expired_time_ns` — the timestamp before which entries
are considered expired (`now() - max_age`, in nanoseconds). -/
def MetaCache.expired_time_ns (cache : MetaCache) (now : Int) : Int :=
  now - cache.max_age

/-- `IndexMap::get` over the predicate map passed to `to_record_batch`. -/
def lookupPredicate (predicates : List (Nat × Predicate)) (id : Nat) : Option Predicate :=
  (predicates.find? (fun pr => pr.1 == id)).map (fun pr => pr.2)

/-- Source: `MetaCache::to_record_batch`. The predicate map is re-ordered into
one optional predicate per cached column, one empty string builder is created
per column, and the tree is evaluated; the record batch is modelled as the
emitted row count together with the final per-column builder contents. -/
def MetaCache.to_record_batch (cache : MetaCache) (predicates : List (Nat × Predicate))
    (now : Int) : Nat × List (List String) :=
  let preds := cache.column_ids.map (fun id => lookupPredicate predicates id)
  let builders : List (List String) := cache.column_ids.map (fun _ => [])
  Node.evaluate_predicates (cache.expired_time_ns now) preds cache.data builders

/-- The rows of the modelled record batch: row `i` is the `i`-th element of
every column (out-of-range reads, which do not occur on equal-length columns,
give `""`). -/
def batch_rows (batch : Nat × List (List String)) : List (List String) :=
  (List.range batch.1).map (fun i => batch.2.map (fun col => col.getD i ""))

/-- Source: `MetaCache::prune`. First remove entries seen before
`now() - max_age`, recompute the cardinality from the tree, and if it still
exceeds `max_cardinality` remove the excess oldest entries and recompute
again. `none` propagates the modelled `remove_n_oldest` panic. -/
def MetaCache.prune (cache : MetaCache) (now : Int) : Option MetaCache :=
  let before_time_ns := cache.expired_time_ns now
  let data1 := cache.data.remove_before before_time_ns
  let card1 := data1.cardinality
  if cache.max_cardinality < card1 then
    (data1.remove_n_oldest (card1 - cache.max_cardinality)).map (fun data2 =>
      { cache with data := data2, cardinality := data2.cardinality })
  else
    some { cache with data := data1, cardinality := card1 }

/-- Source: `schema::InfluxFieldType`. -/
inductive InfluxFieldType where
  | string
  | integer
  | uinteger
  | float
  | boolean
deriving DecidableEq

/-- Source: `schema::InfluxColumnType`. -/
inductive InfluxColumnType where
  | tag
  | timestamp
  | field : InfluxFieldType → InfluxColumnType
deriving DecidableEq

/-- One column of a table definition (`{name, data_type}`). -/
structure ColumnDefinition where
  name : String
  data_type : InfluxColumnType

/-- Source: `influxdb3_catalog::catalog::TableDefinition` — the column map,
keyed by column id. -/
structure TableDefinition where
  columns : List (Nat × ColumnDefinition)

/-- The errors `MetaCache::new` can return (`anyhow` errors in the source,
distinguished here by their cause). -/
inductive CacheError where
  | emptyColumnIds
  | invalidColumnId : Nat → CacheError
  | invalidColumnType : InfluxColumnType → CacheError
deriving DecidableEq

/-- Column lookup in a table definition (`table_def.columns.get(id)`). -/
def TableDefinition.getColumn (td : TableDefinition) (id : Nat) : Option ColumnDefinition :=
  (td.columns.find? (fun p => p.1 == id)).map (fun p => p.2)

/-- The schema-building loop of `MetaCache::new`: resolve each column id,
admit only tags and string fields (mapped to `Utf8View`), and emit one
non-nullable field per column, bailing out at the first offending id. -/
def buildFields (td : TableDefinition) : List Nat → Except CacheError (List SchemaField)
  | [] => .ok []
  | id :: rest =>
    match td.getColumn id with
    | none => .error (.invalidColumnId id)
    | some col =>
      match col.data_type with
      | .tag | .field .string =>
        (buildFields td rest).map (fun fs => ⟨col.name, .utf8View, false⟩ :: fs)
      | t => .error (.invalidColumnType t)

/-- Source: `MetaCache::new`. Validates the column selection and builds the
fixed output schema; on success the cache starts with an empty tree and zero
cardinality. -/
def MetaCache.new (table_def : TableDefinition) (max_cardinality : Nat) (max_age : Int)
    (column_ids : List Nat) : Except CacheError MetaCache :=
  if column_ids.isEmpty then .error .emptyColumnIds
  else
    (buildFields table_def column_ids).map (fun fs =>
      { max_cardinality := max_cardinality
        max_age := max_age
        schema := fs
        cardinality := 0
        column_ids := column_ids
        data := .mk [] })

/-! ### Specification-side definitions

These definitions are not translations of source functions; they state the
properties the spec talks about (leaf timestamps, the interior last-seen
invariant, uniform tree depth, the rows denormalized from the tree). -/

mutual

/-- The `last_seen_ns` timestamps of all leaf entries in a subtree, in entry
order. -/
def Node.leafTimes : Node → List Int
  | .mk es => leafTimesEntries es

/-- Entry-list part of `Node.leafTimes`. -/
def leafTimesEntries : List (String × Int × Option Node) → List Int
  | [] => []
  | (_, t, none) :: rest => t :: leafTimesEntries rest
  | (_, _, some c) :: rest => Node.leafTimes c ++ leafTimesEntries rest

end

/-- The maximum of a list of timestamps (`none` on the empty list). -/
def maxTime : List Int → Option Int
  | [] => none
  | t :: rest =>
    match maxTime rest with
    | none => some t
    | some m => some (max t m)

mutual

/-- The spec invariant on interior entries: every interior entry's
`last_seen_ns` equals the maximum `last_seen_ns` over all leaf entries in its
subtree (which in particular must be non-empty). -/
def Node.last_seen_invariant : Node → Bool
  | .mk es => lastSeenInvEntries es

/-- Entry-list part of `Node.last_seen_invariant`. -/
def lastSeenInvEntries : List (String × Int × Option Node) → Bool
  | [] => true
  | (_, _, none) :: rest => lastSeenInvEntries rest
  | (_, t, some c) :: rest =>
    (maxTime c.leafTimes == some t) && c.last_seen_invariant && lastSeenInvEntries rest

end

mutual

/-- `Node.uniform k n`: every path below `n` has exactly `k` levels — entries
are leaves exactly when `k = 1`, and children are uniform of depth `k - 1`.
Every tree reachable by `MetaCache::push` from the empty tree is uniform of
depth `column_ids.length`. -/
def Node.uniform (k : Nat) : Node → Bool
  | .mk es => uniformEntries k es

/-- Entry-list part of `Node.uniform`. -/
def uniformEntries (k : Nat) : List (String × Int × Option Node) → Bool
  | [] => true
  | (_, _, none) :: rest => (k == 1) && uniformEntries k rest
  | (_, _, some c) :: rest => decide (2 ≤ k) && Node.uniform (k - 1) c && uniformEntries k rest

end

/-- The `last_seen_ns` recorded on each prefix of a value tuple's path from
the root: entry `i` is the timestamp stored with the `(i+1)`-st value of the
tuple, or `none` where the path does not exist. -/
def Node.path_times (n : Node) : List String → List (Option Int)
  | [] => []
  | v :: rest =>
    match n.lookup v with
    | none => none :: rest.map (fun _ => (none : Option Int))
    | some (t, none) => some t :: rest.map (fun _ => (none : Option Int))
    | some (t, some c) => some t :: c.path_times rest

/-- The rows contributed by one candidate, given the rows `rows_of` of its
subtree: a leaf candidate contributes the one-value row `[v]`, a branch
candidate one row `v :: r` per subtree row `r`. -/
def candRows (rows_of : Node → List (List String)) (vn : String × Option Node) :
    List (List String) :=
  match vn.2 with
  | none => [[vn.1]]
  | some child => (rows_of child).map (fun r => vn.1 :: r)

/-- The rows denormalized from the tree by a predicate walk, as value tuples
in DFS order: one row per surviving leaf, each row being the path from the
root to that leaf. `Node.evaluate_predicates` emits exactly these rows
column-wise (see `evaluate_predicates_eq_path_rows`). -/
def Node.path_rows (expired_time_ns : Int) :
    List (Option Predicate) → Node → List (List String)
  | [], _ => []
  | p :: ps, node =>
    (candidateList expired_time_ns p node).flatMap
      (candRows (fun child => Node.path_rows expired_time_ns ps child))

/-- The per-column view of a list of rows: `d` columns, column `j` holding
the `j`-th component of every row that has one. -/
def colsOf (d : Nat) (rows : List (List String)) : List (List String) :=
  (List.range d).map (fun j => rows.filterMap (fun r => r.get? j))

/-! ### Concrete states used by the scenario claims -/

/-- A fresh two-column cache (columns `t1 = 1`, `t2 = 2`), `max_cardinality`
10, `max_age` one hour, as in spec scenario (1). -/
def exCache : MetaCache :=
  { max_cardinality := 10
    max_age := 3600000000000
    schema := [⟨"t1", .utf8View, false⟩, ⟨"t2", .utf8View, false⟩]
    cardinality := 0
    column_ids := [1, 2]
    data := .mk [] }

/-- Row `(t1=a, t2=x, ts=1000)`. -/
def exRow1 : Row := ⟨1000, [⟨1, "a"⟩, ⟨2, "x"⟩]⟩

/-- Row `(t1=a, t2=y, ts=2000)`. -/
def exRow2 : Row := ⟨2000, [⟨1, "a"⟩, ⟨2, "y"⟩]⟩

/-- Row `(t1=b, t2=x, ts=3000)`. -/
def exRow3 : Row := ⟨3000, [⟨1, "b"⟩, ⟨2, "x"⟩]⟩

/-- The cache of spec scenario (1): the three rows pushed in order. -/
def exState : MetaCache := ((exCache.push exRow1).push exRow2).push exRow3

/-- The two-level tree of C1's concrete example: interior entry `a` with
`last_seen 5000` over leaves `x` (`last_seen 1000`) and `y`
(`last_seen 5000`). -/
def c1Node : Node :=
  .mk [("a", 5000, some (.mk [("x", 1000, none), ("y", 5000, none)]))]

/-- Claim C1 (code_bug evidence): on the claim's own two-level example,
`remove_before(3000)` returns the tree unchanged — entry `a` short-circuits
the retain predicate (`5000 > 3000`) without descending, so leaf `x`
(`last_seen 1000 ≤ 3000`) is retained, contradicting the claimed retention
rule (which requires `x` to be removed while `a` and `y` are kept). The
second conjunct exhibits the surviving path `a → x` with its timestamps. -/
theorem c1_remove_before_code_behavior :
    c1Node.remove_before 3000 = c1Node
      ∧ (c1Node.remove_before 3000).path_times ["a", "x"] = [some 5000, some 1000] := by
  constructor
  · simp [c1Node, Node.remove_before, removeBeforeEntries]
  · simp [c1Node, Node.remove_before, removeBeforeEntries, Node.path_times, Node.lookup,
      Node.entries, lookupEntries]

/-- A two-column cache with `max_age = 1000` ns used for C2: one stale leaf
`(a, x, ts=100)` and one fresh leaf `(a, y, ts=1000)`. -/
def c2Cache : MetaCache :=
  { max_cardinality := 10
    max_age := 1000
    schema := [⟨"t1", .utf8View, false⟩, ⟨"t2", .utf8View, false⟩]
    cardinality := 0
    column_ids := [1, 2]
    data := .mk [] }

/-- The tree reached by pushing `(a, x)` at `ts=100` and `(a, y)` at
`ts=1000` into `c2Cache`. -/
def c2Data : Node :=
  .mk [("a", 1000, some (.mk [("x", 100, none), ("y", 1000, none)]))]

/-- `c2Cache` after the two pushes. -/
def c2State : MetaCache :=
  { c2Cache with cardinality := 2, data := c2Data }

/-- Claim C2 (code_bug evidence): pushing `(a,x,100)` then `(a,y,1000)` and
pruning at `now = 1500` (so `now - max_age = 500`) leaves the leaf `x` with
`last_seen 100 ≤ 500` in the tree: the prune retains interior entry `a`
(`1000 > 500`) without descending into its subtree, so the claimed
postcondition — no leaf with `last_seen_ns ≤ now() - max_age` — fails. -/
theorem c2_prune_code_behavior :
    (c2Cache.push ⟨100, [⟨1, "a"⟩, ⟨2, "x"⟩]⟩).push ⟨1000, [⟨1, "a"⟩, ⟨2, "y"⟩]⟩ = c2State
      ∧ (c2State.prune 1500).map (fun c => c.data.leafTimes) = some [100, 1000]
      ∧ (100 : Int) ≤ c2State.expired_time_ns 1500 := by
  refine ⟨?_, ?_, by decide⟩
  · simp +decide [c2State, c2Cache, c2Data, MetaCache.push, getValues, List.find?, Node.push_values, Node.lookup, Node.entries, lookupEntries, insertEntries, updateEntries]
  · simp [c2State, c2Cache, c2Data, MetaCache.prune, MetaCache.expired_time_ns,
      Node.remove_before, removeBeforeEntries, Node.cardinality, cardEntries,
      Node.leafTimes, leafTimesEntries]

/-- A two-column cache with `max_cardinality = 1` used for C3, holding the
two leaves `(a, x, ts=1)` and `(a, y, ts=2)`. -/
def c3Cache : MetaCache :=
  { max_cardinality := 1
    max_age := 0
    schema := [⟨"t1", .utf8View, false⟩, ⟨"t2", .utf8View, false⟩]
    cardinality := 0
    column_ids := [1, 2]
    data := .mk [] }

/-- The tree reached by pushing `(a, x)` at `ts=1` and `(a, y)` at `ts=2`
into `c3Cache`. -/
def c3Data : Node :=
  .mk [("a", 2, some (.mk [("x", 1, none), ("y", 2, none)]))]

/-- `c3Cache` after the two pushes. -/
def c3State : MetaCache :=
  { c3Cache with cardinality := 2, data := c3Data }

/-- Claim C3 (code_bug evidence): with `max_cardinality = 1` and the two
leaves `(a,x,1)`, `(a,y,2)` (nothing expired at `now = 0`), `prune` computes
`n_to_remove = 1` and the cutoff timestamp `1`, but the final
`remove_before(1)` short-circuits at interior entry `a` (`2 > 1`) and removes
nothing, so the cache still reports cardinality `2 > 1 = max_cardinality`
after `prune` returns. -/
theorem c3_prune_code_behavior :
    (c3Cache.push ⟨1, [⟨1, "a"⟩, ⟨2, "x"⟩]⟩).push ⟨2, [⟨1, "a"⟩, ⟨2, "y"⟩]⟩ = c3State
      ∧ (c3State.prune 0).map (fun c => c.cardinality) = some 2
      ∧ c3State.max_cardinality = 1 := by
  refine ⟨?_, ?_, by rfl⟩
  · simp +decide [c3State, c3Cache, c3Data, MetaCache.push, getValues, List.find?, Node.push_values, Node.lookup, Node.entries, lookupEntries, insertEntries, updateEntries]
  · simp [c3State, c3Cache, c3Data, MetaCache.prune, MetaCache.expired_time_ns,
      Node.remove_before, removeBeforeEntries, Node.cardinality, cardEntries,
      Node.remove_n_oldest, Node.find_n_oldest, findNOldestEntries, heapPush]

/-- Claim C4 (counterexample): pushing `(t1=a, t2=x)` at `ts=1000` and then
`(t1=a, t2=y)` at the earlier `ts=500` into a fresh two-column cache leaves
interior entry `a` with `last_seen 500`, while the maximum leaf `last_seen`
in its subtree is `1000`: with non-monotone row timestamps the claimed
interior last-seen invariant fails after a sequence of pushes. -/
theorem c4_invariant_counterexample :
    ((exCache.push ⟨1000, [⟨1, "a"⟩, ⟨2, "x"⟩]⟩).push
        ⟨500, [⟨1, "a"⟩, ⟨2, "y"⟩]⟩).data =
      Node.mk [("a", 500, some (.mk [("x", 1000, none), ("y", 500, none)]))]
      ∧ (Node.mk [("a", 500, some (.mk [("x", 1000, none), ("y", 500, none)]))]).last_seen_invariant
          = false := by
  refine ⟨?_, ?_⟩
  · simp +decide [exCache, MetaCache.push, getValues, List.find?, Node.push_values, Node.lookup, Node.entries, lookupEntries, insertEntries, updateEntries]
  · simp [Node.last_seen_invariant, lastSeenInvEntries, Node.leafTimes, leafTimesEntries, maxTime]

/-- Claim C5: pushing `(t1=a,t2=x,ts=1000)`, `(t1=a,t2=y,ts=2000)`,
`(t1=b,t2=x,ts=3000)` into a fresh two-column cache and gathering a record
batch with no predicates (at `now = max_age + 0`, so nothing is expired)
yields exactly the three rows `(a,x), (a,y), (b,x)` in that order, and the
cache's cardinality counter is 3. -/
theorem c5_three_rows :
    exState.cardinality = 3
      ∧ exState.to_record_batch [] 3600000000000 = (3, [["a", "a", "b"], ["x", "y", "x"]])
      ∧ batch_rows (exState.to_record_batch [] 3600000000000) =
          [["a", "x"], ["a", "y"], ["b", "x"]] := by
  refine ⟨?_, ?_, ?_⟩
  · simp +decide [exState, exCache, exRow1, exRow2, exRow3, MetaCache.push, getValues, List.find?, Node.push_values, Node.lookup, Node.entries, lookupEntries, insertEntries, updateEntries]
  · simp +decide [exState, exCache, exRow1, exRow2, exRow3, MetaCache.push, getValues, List.find?, Node.push_values, Node.lookup, Node.entries, lookupEntries, insertEntries, updateEntries, MetaCache.to_record_batch, MetaCache.expired_time_ns, lookupPredicate, Node.evaluate_predicates, evalStepWith, candidateList, Node.evaluate_predicate, batch_rows, List.range, List.range.loop]
  · simp +decide [exState, exCache, exRow1, exRow2, exRow3, MetaCache.push, getValues, List.find?, Node.push_values, Node.lookup, Node.entries, lookupEntries, insertEntries, updateEntries, MetaCache.to_record_batch, MetaCache.expired_time_ns, lookupPredicate, Node.evaluate_predicates, evalStepWith, candidateList, Node.evaluate_predicate, batch_rows, List.range, List.range.loop]

/-- Claim C6: in the state of scenario (1), a record batch gathered with the
predicate `In {a}` on column `t1` holds exactly the rows `(a,x), (a,y)`, and
one gathered with `NotIn {x}` on column `t2` holds exactly the row `(a,y)`. -/
theorem c6_predicate_rows :
    batch_rows (exState.to_record_batch [(1, .In ["a"])] 3600000000000) =
        [["a", "x"], ["a", "y"]]
      ∧ batch_rows (exState.to_record_batch [(2, .NotIn ["x"])] 3600000000000) =
          [["a", "y"]] := by
  refine ⟨?_, ?_⟩
  · simp +decide [exState, exCache, exRow1, exRow2, exRow3, MetaCache.push, getValues, List.find?, Node.push_values, Node.lookup, Node.entries, lookupEntries, insertEntries, updateEntries, MetaCache.to_record_batch, MetaCache.expired_time_ns, lookupPredicate, Node.evaluate_predicates, evalStepWith, candidateList, Node.evaluate_predicate, batch_rows, List.range, List.range.loop]
  · simp +decide [exState, exCache, exRow1, exRow2, exRow3, MetaCache.push, getValues, List.find?, Node.push_values, Node.lookup, Node.entries, lookupEntries, insertEntries, updateEntries, MetaCache.to_record_batch, MetaCache.expired_time_ns, lookupPredicate, Node.evaluate_predicates, evalStepWith, candidateList, Node.evaluate_predicate, batch_rows, List.range, List.range.loop]

/-! ### C9: construction-time validation -/

theorem buildFields_ok_iff (td : TableDefinition) :
    ∀ ids : List Nat, (∃ fs, buildFields td ids = .ok fs) ↔
      ∀ id ∈ ids, ∃ col, td.getColumn id = some col ∧
        (col.data_type = .tag ∨ col.data_type = .field .string) := by
  intro ids
  induction ids with
  | nil => simp [buildFields]
  | cons id rest ih =>
    simp only [List.mem_cons, forall_eq_or_imp]
    constructor
    · rintro ⟨fs, hfs⟩
      match hc : td.getColumn id with
      | none => simp [buildFields, hc] at hfs
      | some col =>
        match hd : col.data_type with
        | .tag =>
          refine ⟨⟨col, rfl, Or.inl hd⟩, ih.mp ?_⟩
          simp only [buildFields, hc, hd] at hfs
          match hr : buildFields td rest with
          | .ok fs' => exact ⟨fs', rfl⟩
          | .error e => rw [hr] at hfs; simp [Except.map] at hfs
        | .field .string =>
          refine ⟨⟨col, rfl, Or.inr hd⟩, ih.mp ?_⟩
          simp only [buildFields, hc, hd] at hfs
          match hr : buildFields td rest with
          | .ok fs' => exact ⟨fs', rfl⟩
          | .error e => rw [hr] at hfs; simp [Except.map] at hfs
        | .timestamp => simp [buildFields, hc, hd] at hfs
        | .field .integer => simp [buildFields, hc, hd] at hfs
        | .field .uinteger => simp [buildFields, hc, hd] at hfs
        | .field .float => simp [buildFields, hc, hd] at hfs
        | .field .boolean => simp [buildFields, hc, hd] at hfs
    · rintro ⟨⟨col, hc, hd⟩, hrest⟩
      obtain ⟨fs', hfs'⟩ := ih.mpr hrest
      rcases hd with hd | hd
      · exact ⟨⟨col.name, .utf8View, false⟩ :: fs', by simp [buildFields, hc, hd, hfs', Except.map]⟩
      · exact ⟨⟨col.name, .utf8View, false⟩ :: fs', by simp [buildFields, hc, hd, hfs', Except.map]⟩

theorem buildFields_ok_spec (td : TableDefinition) :
    ∀ (ids : List Nat) (fs : List SchemaField), buildFields td ids = .ok fs →
      List.Forall₂
        (fun id f => ∃ col, td.getColumn id = some col ∧
          f = ⟨col.name, .utf8View, false⟩) ids fs := by
  intro ids
  induction ids with
  | nil =>
    intro fs hfs
    simp only [buildFields] at hfs
    cases hfs
    exact .nil
  | cons id rest ih =>
    intro fs hfs
    match hc : td.getColumn id with
    | none => simp [buildFields, hc] at hfs
    | some col =>
      match hd : col.data_type with
      | .tag =>
        simp only [buildFields, hc, hd] at hfs
        match hr : buildFields td rest with
        | .ok fs' =>
          rw [hr] at hfs
          cases hfs
          exact .cons ⟨col, hc, rfl⟩ (ih fs' hr)
        | .error e => rw [hr] at hfs; simp [Except.map] at hfs
      | .field .string =>
        simp only [buildFields, hc, hd] at hfs
        match hr : buildFields td rest with
        | .ok fs' =>
          rw [hr] at hfs
          cases hfs
          exact .cons ⟨col, hc, rfl⟩ (ih fs' hr)
        | .error e => rw [hr] at hfs; simp [Except.map] at hfs
      | .timestamp => simp [buildFields, hc, hd] at hfs
      | .field .integer => simp [buildFields, hc, hd] at hfs
      | .field .uinteger => simp [buildFields, hc, hd] at hfs
      | .field .float => simp [buildFields, hc, hd] at hfs
      | .field .boolean => simp [buildFields, hc, hd] at hfs

/-- Claim C9: `MetaCache::new` succeeds exactly when `column_ids` is non-empty
and every id resolves in the table definition to a tag or string-field column
(so it errors on an empty selection, an unresolved id, or any other column
type, and no cache is created); on success the built schema has exactly one
non-nullable utf8-view field per configured column, in `column_ids` order,
named by the column definitions. -/
theorem c9_new_validation (td : TableDefinition) (maxc : Nat) (maxa : Int) (ids : List Nat) :
    ((∃ cache, MetaCache.new td maxc maxa ids = .ok cache) ↔
      (ids ≠ [] ∧ ∀ id ∈ ids, ∃ col, td.getColumn id = some col ∧
        (col.data_type = .tag ∨ col.data_type = .field .string)))
    ∧ (∀ cache, MetaCache.new td maxc maxa ids = .ok cache →
        List.Forall₂
          (fun id f => ∃ col, td.getColumn id = some col ∧
            f = ⟨col.name, .utf8View, false⟩) ids cache.schema) := by
  constructor
  · constructor
    · rintro ⟨cache, hcache⟩
      rw [MetaCache.new] at hcache
      by_cases hids : ids.isEmpty
      · rw [if_pos hids] at hcache; exact absurd hcache (by simp)
      · rw [if_neg hids] at hcache
        refine ⟨by simpa [List.isEmpty_iff] using hids, ?_⟩
        refine (buildFields_ok_iff td ids).mp ?_
        match hr : buildFields td ids with
        | .ok fs => exact ⟨fs, rfl⟩
        | .error e => rw [hr] at hcache; simp [Except.map] at hcache
    · rintro ⟨hne, hall⟩
      obtain ⟨fs, hfs⟩ := (buildFields_ok_iff td ids).mpr hall
      refine ⟨⟨maxc, maxa, fs, 0, ids, .mk []⟩, ?_⟩
      rw [MetaCache.new, if_neg (by simpa [List.isEmpty_iff] using hne), hfs]
      rfl
  · intro cache hcache
    rw [MetaCache.new] at hcache
    by_cases hids : ids.isEmpty
    · rw [if_pos hids] at hcache; exact absurd hcache (by simp)
    · rw [if_neg hids] at hcache
      match hr : buildFields td ids with
      | .ok fs =>
        rw [hr] at hcache
        cases hcache
        exact buildFields_ok_spec td ids fs hr
      | .error e => rw [hr] at hcache; simp [Except.map] at hcache

/-- A table definition with a tag column, a string field column and a float
field column, used to instantiate C9. -/
def exTable : TableDefinition :=
  ⟨[(1, ⟨"t1", .tag⟩), (2, ⟨"t2", .field .string⟩), (3, ⟨"f1", .field .float⟩)]⟩

/-- Witness for C9 at a concrete table: construction over the tag and
string-field columns succeeds, and by the same characterization construction
over the float column (or with an empty selection) fails. -/
theorem c9_new_validation_witness :
    (∃ cache, MetaCache.new exTable 10 100 [1, 2] = .ok cache)
      ∧ ¬(∃ cache, MetaCache.new exTable 10 100 [3] = .ok cache)
      ∧ ¬(∃ cache, MetaCache.new exTable 10 100 [] = .ok cache) := by
  refine ⟨?_, ?_, ?_⟩
  · refine (c9_new_validation exTable 10 100 [1, 2]).1.mpr ⟨by simp, ?_⟩
    intro id hid
    rcases List.mem_cons.mp hid with h | h
    · exact ⟨⟨"t1", .tag⟩, by subst h; simp [exTable, TableDefinition.getColumn, List.find?],
        Or.inl rfl⟩
    · have h2 : id = 2 := by simpa using h
      exact ⟨⟨"t2", .field .string⟩,
        by subst h2; simp [exTable, TableDefinition.getColumn, List.find?], Or.inr rfl⟩
  · intro h
    have h2 := ((c9_new_validation exTable 10 100 [3]).1.mp h).2 3 (by simp)
    obtain ⟨col, hcol, hd⟩ := h2
    simp [exTable, TableDefinition.getColumn, List.find?] at hcol
    rcases hd with hd | hd <;> rw [← hcol] at hd <;> simp at hd
  · intro h
    exact absurd ((c9_new_validation exTable 10 100 []).1.mp h).1 (by simp)

/-! ### Structural tools for the recursive tree functions -/

theorem entries_induction (P : List (String × Int × Option Node) → Prop)
    (h0 : P [])
    (h1 : ∀ v t rest, P rest → P ((v, t, none) :: rest))
    (h2 : ∀ v t c rest, P c.entries → P rest → P ((v, t, some c) :: rest)) :
    ∀ es, P es := by
  have key : ∀ (k : Nat) (es : List (String × Int × Option Node)), sizeOf es ≤ k → P es := by
    intro k
    induction k with
    | zero =>
      intro es h
      match es with
      | [] => exact h0
      | e :: rest => simp [List.cons.sizeOf_spec] at h
    | succ k ih =>
      intro es h
      match es with
      | [] => exact h0
      | (v, t, none) :: rest =>
        refine h1 v t rest (ih rest ?_)
        simp [List.cons.sizeOf_spec] at h ⊢
        omega
      | (v, t, some c) :: rest =>
        match c with
        | .mk es' =>
          refine h2 v t (.mk es') rest (ih (Node.mk es').entries ?_) (ih rest ?_)
          · simp [List.cons.sizeOf_spec, Prod.mk.sizeOf_spec, Option.some.sizeOf_spec,
              Node.mk.sizeOf_spec, Node.entries] at h ⊢
            omega
          · simp [List.cons.sizeOf_spec] at h ⊢
            omega
  intro es
  exact key (sizeOf es) es le_rfl

theorem cardinality_eq (n : Node) : n.cardinality = cardEntries n.entries := by
  cases n
  simp [Node.cardinality, Node.entries]

theorem remove_before_eq (t : Int) (n : Node) :
    n.remove_before t = .mk (removeBeforeEntries t n.entries) := by
  cases n
  simp [Node.remove_before, Node.entries]

theorem find_n_oldest_eq (k : Nat) (n : Node) (heap : List Int) :
    n.find_n_oldest k heap = findNOldestEntries k n.entries heap := by
  cases n
  simp [Node.find_n_oldest, Node.entries]

theorem leafTimes_eq (n : Node) : n.leafTimes = leafTimesEntries n.entries := by
  cases n
  simp [Node.leafTimes, Node.entries]

theorem last_seen_invariant_eq (n : Node) :
    n.last_seen_invariant = lastSeenInvEntries n.entries := by
  cases n
  simp [Node.last_seen_invariant, Node.entries]

theorem uniform_eq (k : Nat) (n : Node) : n.uniform k = uniformEntries k n.entries := by
  cases n
  simp [Node.uniform, Node.entries]

/-! ### C10: the `remove_n_oldest` unwrap cannot panic under `prune` -/

theorem heapPush_length (x : Int) : ∀ h : List Int, (heapPush x h).length = h.length + 1 := by
  intro h
  induction h with
  | nil => simp [heapPush]
  | cons y rest ih =>
    rw [heapPush]
    by_cases hy : y < x
    · simp [hy]
    · simp [hy, ih]

theorem findNOldest_length_mono (k : Nat) :
    ∀ es (heap : List Int), heap.length ≤ (findNOldestEntries k es heap).length := by
  refine entries_induction _ ?_ ?_ ?_
  · intro heap
    simp [findNOldestEntries]
  · intro v t rest ih heap
    simp only [findNOldestEntries]
    refine le_trans ?_ (ih _)
    cases heap with
    | nil =>
      by_cases hlt : ([] : List Int).length < k
      · simp [hlt, heapPush_length]
      · simp [hlt]
    | cons newest tail =>
      split
      · simp [heapPush_length]
      · by_cases ht : t < newest
        · simp [ht, heapPush_length]
        · simp [ht]
  · intro v t c rest ihc ih heap
    simp only [findNOldestEntries, find_n_oldest_eq]
    exact le_trans (ihc heap) (ih _)

theorem findNOldest_length_min (k : Nat) :
    ∀ es (heap : List Int),
      min k (heap.length + cardEntries es) ≤ (findNOldestEntries k es heap).length := by
  refine entries_induction _ ?_ ?_ ?_
  · intro heap
    simp [findNOldestEntries, cardEntries]
  · intro v t rest ih heap
    simp only [findNOldestEntries]
    simp only [cardEntries]
    cases heap with
    | nil =>
      by_cases hlt : ([] : List Int).length < k
      · have h1 := ih (heapPush t [])
        have hl := heapPush_length t []
        simp only [hlt, if_true]
        omega
      · have h1 := ih []
        simp only [hlt, if_false]
        simp only [List.length_nil] at hlt h1 ⊢
        omega
    | cons newest tail =>
      by_cases hlt : (newest :: tail).length < k
      · have h1 := ih (heapPush t (newest :: tail))
        have hl := heapPush_length t (newest :: tail)
        simp only [hlt, if_true]
        simp only [List.length_cons] at hlt h1 hl ⊢
        omega
      · simp only [hlt, if_false]
        by_cases ht : t < newest
        · have h1 := ih (heapPush t tail)
          have hl := heapPush_length t tail
          simp only [ht, if_true]
          simp only [List.length_cons] at hlt h1 ⊢
          omega
        · have h1 := ih (newest :: tail)
          simp only [ht, if_false]
          simp only [List.length_cons] at hlt h1 ⊢
          omega
  · intro v t c rest ihc ih heap
    simp only [findNOldestEntries, find_n_oldest_eq]
    simp only [cardEntries, ← cardinality_eq]
    have h1 := ihc heap
    have h2 := ih (findNOldestEntries k c.entries heap)
    have h3 := findNOldest_length_mono k c.entries heap
    rw [← cardinality_eq] at h1
    omega

theorem findNOldest_zero : ∀ es, findNOldestEntries 0 es [] = [] := by
  refine entries_induction _ ?_ ?_ ?_
  · simp [findNOldestEntries]
  · intro v t rest ih
    simp only [findNOldestEntries]
    simpa using ih
  · intro v t c rest ihc ih
    simp only [findNOldestEntries, find_n_oldest_eq, ihc]
    exact ih

theorem findNOldest_card_zero (k : Nat) :
    ∀ es (heap : List Int), cardEntries es = 0 → findNOldestEntries k es heap = heap := by
  refine entries_induction _ ?_ ?_ ?_
  · intro heap _
    simp [findNOldestEntries]
  · intro v t rest _ heap hcard
    rw [cardEntries] at hcard
    omega
  · intro v t c rest ihc ih heap hcard
    rw [cardEntries] at hcard
    have hc : cardEntries c.entries = 0 := by rw [← cardinality_eq]; omega
    have hr : cardEntries rest = 0 := by omega
    simp only [findNOldestEntries, find_n_oldest_eq, ihc heap hc]
    exact ih heap hr

/-- Claim C10: `Node::remove_n_oldest` hits the `unwrap` panic (modelled as
`none`) exactly when the heap built by `find_n_oldest` stays empty, i.e. when
`n_to_remove = 0` or the tree has no leaves; and under the precondition
established by `MetaCache::prune` — it is only called with
`n_to_remove = cardinality - max_cardinality ≥ 1` on a tree of positive
cardinality, since `max_cardinality ≥ 1` (a `NonZeroUsize` in the source) —
the panic branch is unreachable, so `prune` always returns. -/
theorem c10_remove_n_oldest_no_panic :
    (∀ (node : Node) (k : Nat),
        node.remove_n_oldest k = none ↔ (k = 0 ∨ node.cardinality = 0))
    ∧ (∀ (cache : MetaCache) (now : Int), 1 ≤ cache.max_cardinality →
        (cache.prune now).isSome = true) := by
  have main : ∀ (node : Node) (k : Nat),
      node.remove_n_oldest k = none ↔ (k = 0 ∨ node.cardinality = 0) := by
    intro node k
    rw [Node.remove_n_oldest, find_n_oldest_eq]
    constructor
    · intro h
      match hh : (findNOldestEntries k node.entries []).head? with
      | some cutoff => rw [hh] at h; simp at h
      | none =>
        have hlen : (findNOldestEntries k node.entries []).length = 0 := by
          rw [List.head?_eq_none_iff] at hh
          simp [hh]
        have hmin := findNOldest_length_min k node.entries []
        rw [cardinality_eq]
        simp only [List.length_nil, Nat.zero_add] at hmin
        omega
    · intro h
      rcases h with h | h
      · subst h
        rw [findNOldest_zero]
        rfl
      · rw [cardinality_eq] at h
        rw [findNOldest_card_zero _ _ _ h]
        rfl
  refine ⟨main, ?_⟩
  intro cache now hmax
  rw [MetaCache.prune]
  set data1 := cache.data.remove_before (cache.expired_time_ns now) with hd1
  by_cases hcard : cache.max_cardinality < data1.cardinality
  · simp only [hcard, if_true]
    match hr : data1.remove_n_oldest (data1.cardinality - cache.max_cardinality) with
    | some d => simp [hr]
    | none =>
      rw [main] at hr
      omega
  · simp [hcard]

/-- Witness for C10: at the fresh two-column example cache (whose
`max_cardinality` is 10 ≥ 1), `prune` returns a value; and the general
characterization applies to the singleton tree, whose `remove_n_oldest 0`
does panic. -/
theorem c10_remove_n_oldest_no_panic_witness :
    1 ≤ exCache.max_cardinality ∧ (exCache.prune 0).isSome = true
      ∧ (Node.mk [("a", 5, none)]).remove_n_oldest 0 = none := by
  refine ⟨by decide, c10_remove_n_oldest_no_panic.2 exCache 0 (by decide), ?_⟩
  exact (c10_remove_n_oldest_no_panic.1 (Node.mk [("a", 5, none)]) 0).mpr (Or.inl rfl)

/-! ### Entry-list lemmas shared by the push claims -/

theorem lookup_insertEntries_self (v : String) (t : Int) (c : Option Node) :
    ∀ es, lookupEntries v es = none →
      lookupEntries v (insertEntries v t c es) = some (t, c) := by
  intro es
  induction es with
  | nil => intro _; simp [insertEntries, lookupEntries]
  | cons e rest ih =>
    obtain ⟨w, tw, cw⟩ := e
    intro h
    rw [lookupEntries] at h
    by_cases hw : w = v
    · simp [hw] at h
    · rw [if_neg hw] at h
      rw [insertEntries]
      by_cases hv : v < w
      · simp [hv, lookupEntries]
      · rw [if_neg hv, lookupEntries, if_neg hw]
        exact ih h

theorem lookup_updateEntries_self (v : String) (t : Int) (c : Option Node) :
    ∀ es, lookupEntries v (updateEntries v t c es) =
      (lookupEntries v es).map (fun _ => (t, c)) := by
  intro es
  induction es with
  | nil => simp [updateEntries, lookupEntries]
  | cons e rest ih =>
    obtain ⟨w, tw, cw⟩ := e
    rw [updateEntries]
    by_cases hw : w = v
    · rw [if_pos hw, lookupEntries, if_pos hw, lookupEntries, if_pos hw]
      simp
    · rw [if_neg hw, lookupEntries, if_neg hw, lookupEntries, if_neg hw]
      exact ih

theorem mem_of_lookupEntries (v : String) (x : Int × Option Node) :
    ∀ es, lookupEntries v es = some x → (v, x.1, x.2) ∈ es := by
  intro es
  induction es with
  | nil => intro h; simp [lookupEntries] at h
  | cons e rest ih =>
    obtain ⟨w, tw, cw⟩ := e
    intro h
    rw [lookupEntries] at h
    by_cases hw : w = v
    · rw [if_pos hw] at h
      cases h
      subst hw
      simp
    · rw [if_neg hw] at h
      exact List.mem_cons_of_mem _ (ih h)

/-- The uniformity requirement on one entry's child, as used entry-wise by
`Node.uniform`. -/
def childOk (k : Nat) : Option Node → Bool
  | none => k == 1
  | some c => decide (2 ≤ k) && Node.uniform (k - 1) c

theorem uniformEntries_cons (k : Nat) (v : String) (t : Int) (c : Option Node)
    (rest : List (String × Int × Option Node)) :
    uniformEntries k ((v, t, c) :: rest) = (childOk k c && uniformEntries k rest) := by
  cases c <;> simp [uniformEntries, childOk]

theorem uniform_of_mem (k : Nat) :
    ∀ es, uniformEntries k es = true →
      ∀ v t c, (v, t, c) ∈ es → childOk k c = true := by
  intro es
  induction es with
  | nil => intro _ v t c h; simp at h
  | cons e rest ih =>
    obtain ⟨w, tw, cw⟩ := e
    intro hu v t c h
    rw [uniformEntries_cons, Bool.and_eq_true] at hu
    rcases List.mem_cons.mp h with h | h
    · cases h; exact hu.1
    · exact ih hu.2 v t c h

/-- Claim C7: in any cache state whose tree is uniform of the configured
depth (every state reachable by pushes is), pushing the same value tuple
first at timestamp `t1` and then at `t2 ≥ t1` leaves the cardinality counter
unchanged by the second push, and afterwards every entry on the tuple's path
from the root to its leaf carries `last_seen_ns = t2`. -/
theorem c7_push_idempotent_upto_timestamp (cache : MetaCache) (fields : List Field)
    (t1 t2 : Int) (values : List String)
    (hne : cache.column_ids ≠ [])
    (hvals : getValues fields cache.column_ids = some values)
    (huni : cache.data.uniform cache.column_ids.length = true)
    (hle : t1 ≤ t2) :
    ((cache.push ⟨t1, fields⟩).push ⟨t2, fields⟩).cardinality
        = (cache.push ⟨t1, fields⟩).cardinality
      ∧ ((cache.push ⟨t1, fields⟩).push ⟨t2, fields⟩).data.path_times values
          = values.map (fun _ => some t2) := by
  have core : ∀ (vs : List String) (n : Node), vs ≠ [] → n.uniform vs.length = true →
      ((n.push_values t1 vs).1.push_values t2 vs).2 = false
      ∧ (((n.push_values t1 vs).1.push_values t2 vs).1).path_times vs
          = vs.map (fun _ => some t2) := by
    intro vs
    induction vs with
    | nil => intro n h; exact absurd rfl h
    | cons v rest ih =>
      intro n _ huni
      rw [uniform_eq] at huni
      match hl : n.lookup v with
      | none =>
        match rest with
        | [] =>
          have e1 : n.push_values t1 [v] = (.mk (insertEntries v t1 none n.entries), true) := by
            rw [Node.push_values, hl]; try rfl
          have h1 : (Node.mk (insertEntries v t1 none n.entries)).lookup v = some (t1, none) :=
            lookup_insertEntries_self v t1 none n.entries hl
          have e2 : (Node.mk (insertEntries v t1 none n.entries)).push_values t2 [v]
              = (.mk (updateEntries v t2 none (insertEntries v t1 none n.entries)), false) := by
            rw [Node.push_values, h1]; try rfl
          have h2 : (Node.mk (updateEntries v t2 none
              (insertEntries v t1 none n.entries))).lookup v = some (t2, none) := by
            have hu := lookup_updateEntries_self v t2 none (insertEntries v t1 none n.entries)
            rw [show lookupEntries v (insertEntries v t1 none n.entries) = some (t1, none)
              from h1] at hu
            exact hu
          simp only [e1, e2]
          refine ⟨by trivial, ?_⟩
          rw [Node.path_times, h2]
          simp
        | r :: rs =>
          have hrest : (r :: rs) ≠ [] := by simp
          have huni0 : (Node.mk []).uniform (r :: rs).length = true := by
            rw [uniform_eq]
            simp [Node.entries, uniformEntries]
          obtain ⟨ihnew, ihpath⟩ := ih (.mk []) hrest huni0
          have e1 : n.push_values t1 (v :: r :: rs)
              = (.mk (insertEntries v t1 (some ((Node.mk []).push_values t1 (r :: rs)).1)
                  n.entries), true) := by
            rw [Node.push_values, hl]; try rfl
          have h1 : (Node.mk (insertEntries v t1
              (some ((Node.mk []).push_values t1 (r :: rs)).1) n.entries)).lookup v
              = some (t1, some ((Node.mk []).push_values t1 (r :: rs)).1) :=
            lookup_insertEntries_self v t1 _ n.entries hl
          have e2 : (Node.mk (insertEntries v t1
              (some ((Node.mk []).push_values t1 (r :: rs)).1) n.entries)).push_values
                t2 (v :: r :: rs)
              = (.mk (updateEntries v t2
                  (some ((((Node.mk []).push_values t1 (r :: rs)).1).push_values
                    t2 (r :: rs)).1)
                  (insertEntries v t1 (some ((Node.mk []).push_values t1 (r :: rs)).1)
                    n.entries)),
                 ((((Node.mk []).push_values t1 (r :: rs)).1).push_values t2 (r :: rs)).2) := by
            rw [Node.push_values, h1]; try rfl
          have h2 : (Node.mk (updateEntries v t2
              (some ((((Node.mk []).push_values t1 (r :: rs)).1).push_values t2 (r :: rs)).1)
              (insertEntries v t1 (some ((Node.mk []).push_values t1 (r :: rs)).1)
                n.entries))).lookup v
              = some (t2, some ((((Node.mk []).push_values t1 (r :: rs)).1).push_values
                  t2 (r :: rs)).1) := by
            have hu := lookup_updateEntries_self v t2
              (some ((((Node.mk []).push_values t1 (r :: rs)).1).push_values t2 (r :: rs)).1)
              (insertEntries v t1 (some ((Node.mk []).push_values t1 (r :: rs)).1) n.entries)
            rw [show lookupEntries v (insertEntries v t1
                (some ((Node.mk []).push_values t1 (r :: rs)).1) n.entries)
              = some (t1, some ((Node.mk []).push_values t1 (r :: rs)).1) from h1] at hu
            exact hu
          simp only [e1, e2]
          refine ⟨by rw [ihnew], ?_⟩
          rw [Node.path_times, h2]
          simp [ihpath]
      | some (t0, none) =>
        have hmem := mem_of_lookupEntries v (t0, none) n.entries hl
        have hok := uniform_of_mem _ n.entries huni v t0 none hmem
        rw [childOk] at hok
        have hk : rest.length = 0 := by simpa using hok
        match rest, hk with
        | [], _ =>
          have e1 : n.push_values t1 [v] = (.mk (updateEntries v t1 none n.entries), false) := by
            rw [Node.push_values, hl]; try rfl
          have h1 : (Node.mk (updateEntries v t1 none n.entries)).lookup v
              = some (t1, none) := by
            have hu := lookup_updateEntries_self v t1 none n.entries
            rw [show lookupEntries v n.entries = some (t0, none) from hl] at hu
            exact hu
          have e2 : (Node.mk (updateEntries v t1 none n.entries)).push_values t2 [v]
              = (.mk (updateEntries v t2 none (updateEntries v t1 none n.entries)), false) := by
            rw [Node.push_values, h1]; try rfl
          have h2 : (Node.mk (updateEntries v t2 none
              (updateEntries v t1 none n.entries))).lookup v = some (t2, none) := by
            have hu := lookup_updateEntries_self v t2 none (updateEntries v t1 none n.entries)
            rw [show lookupEntries v (updateEntries v t1 none n.entries) = some (t1, none)
              from h1] at hu
            exact hu
          simp only [e1, e2]
          refine ⟨by trivial, ?_⟩
          rw [Node.path_times, h2]
          simp
      | some (t0, some c) =>
        have hmem := mem_of_lookupEntries v (t0, some c) n.entries hl
        have hok := uniform_of_mem _ n.entries huni v t0 (some c) hmem
        rw [childOk, Bool.and_eq_true] at hok
        have hk : 2 ≤ rest.length + 1 := by
          have := hok.1
          simpa using this
        have hcu : c.uniform rest.length = true := by
          have := hok.2
          simpa using this
        have hrest : rest ≠ [] := by
          cases rest with
          | nil => simp at hk
          | cons a b => simp
        obtain ⟨ihnew, ihpath⟩ := ih c hrest hcu
        have e1 : n.push_values t1 (v :: rest)
            = (.mk (updateEntries v t1 (some (c.push_values t1 rest).1) n.entries),
               (c.push_values t1 rest).2) := by
          cases rest with
          | nil => exact absurd rfl hrest
          | cons r rs => rw [Node.push_values, hl]; try rfl
        have h1 : (Node.mk (updateEntries v t1 (some (c.push_values t1 rest).1)
            n.entries)).lookup v = some (t1, some (c.push_values t1 rest).1) := by
          have hu := lookup_updateEntries_self v t1 (some (c.push_values t1 rest).1) n.entries
          rw [show lookupEntries v n.entries = some (t0, some c) from hl] at hu
          exact hu
        have e2 : (Node.mk (updateEntries v t1 (some (c.push_values t1 rest).1)
            n.entries)).push_values t2 (v :: rest)
            = (.mk (updateEntries v t2 (some (((c.push_values t1 rest).1).push_values
                  t2 rest).1)
                (updateEntries v t1 (some (c.push_values t1 rest).1) n.entries)),
               (((c.push_values t1 rest).1).push_values t2 rest).2) := by
          cases rest with
          | nil => exact absurd rfl hrest
          | cons r rs => rw [Node.push_values, h1]; try rfl
        have h2 : (Node.mk (updateEntries v t2
            (some (((c.push_values t1 rest).1).push_values t2 rest).1)
            (updateEntries v t1 (some (c.push_values t1 rest).1) n.entries))).lookup v
            = some (t2, some (((c.push_values t1 rest).1).push_values t2 rest).1) := by
          have hu := lookup_updateEntries_self v t2
            (some (((c.push_values t1 rest).1).push_values t2 rest).1)
            (updateEntries v t1 (some (c.push_values t1 rest).1) n.entries)
          rw [show lookupEntries v (updateEntries v t1 (some (c.push_values t1 rest).1)
              n.entries) = some (t1, some (c.push_values t1 rest).1) from h1] at hu
          exact hu
        simp only [e1, e2]
        refine ⟨by rw [ihnew], ?_⟩
        rw [Node.path_times, h2]
        simp [ihpath]
  have hvs : values ≠ [] := by
    intro hempty
    subst hempty
    cases hcol : cache.column_ids with
    | nil => exact hne hcol
    | cons a b =>
      rw [hcol] at hvals
      simp only [getValues] at hvals
      match hf : (fields.find? (fun f => f.id == a)).map (fun f => f.value) with
      | none => rw [hf] at hvals; simp at hvals
      | some w =>
        rw [hf] at hvals
        match hg : getValues fields b with
        | none => rw [hg] at hvals; simp at hvals
        | some ws => rw [hg] at hvals; simp at hvals
  have hlen_aux : ∀ (ids : List Nat) (vs : List String),
      getValues fields ids = some vs → vs.length = ids.length := by
    intro ids
    induction ids with
    | nil => intro vs h; simp only [getValues] at h; cases h; rfl
    | cons a b ih =>
      intro vs h
      simp only [getValues] at h
      match hf : (fields.find? (fun f => f.id == a)).map (fun f => f.value) with
      | none => rw [hf] at h; simp at h
      | some w =>
        rw [hf] at h
        match hg : getValues fields b with
        | none => rw [hg] at h; simp at h
        | some ws =>
          rw [hg] at h
          simp only [Option.map_some] at h
          cases h
          simp [ih ws hg]
  have hlen : values.length = cache.column_ids.length := hlen_aux _ _ hvals
  have huni' : cache.data.uniform values.length = true := by rw [hlen]; exact huni
  obtain ⟨hnew, hpath⟩ := core values cache.data hvs huni'
  simp only [MetaCache.push, hvals]
  simp only [hnew]
  exact ⟨rfl, hpath⟩

/-- Witness for C7: pushing the tuple `(a, x)` into the fresh example cache at
`ts = 5` and again at `ts = 7` leaves the cardinality at its value after the
first push, and both entries on the path hold `last_seen = 7`. -/
theorem c7_push_idempotent_upto_timestamp_witness :
    exCache.column_ids ≠ []
      ∧ getValues [⟨1, "a"⟩, ⟨2, "x"⟩] exCache.column_ids = some ["a", "x"]
      ∧ exCache.data.uniform exCache.column_ids.length = true
      ∧ (5 : Int) ≤ 7
      ∧ ((exCache.push ⟨5, [⟨1, "a"⟩, ⟨2, "x"⟩]⟩).push ⟨7, [⟨1, "a"⟩, ⟨2, "x"⟩]⟩).cardinality
          = (exCache.push ⟨5, [⟨1, "a"⟩, ⟨2, "x"⟩]⟩).cardinality
      ∧ ((exCache.push ⟨5, [⟨1, "a"⟩, ⟨2, "x"⟩]⟩).push
          ⟨7, [⟨1, "a"⟩, ⟨2, "x"⟩]⟩).data.path_times ["a", "x"] = [some 7, some 7] := by
  have h1 : exCache.column_ids ≠ [] := by simp [exCache]
  have h2 : getValues [⟨1, "a"⟩, ⟨2, "x"⟩] exCache.column_ids = some ["a", "x"] := by
    simp [exCache, getValues, List.find?]
  have h3 : exCache.data.uniform exCache.column_ids.length = true := by
    rw [uniform_eq]
    simp [exCache, Node.entries, uniformEntries]
  have h4 : (5 : Int) ≤ 7 := by decide
  obtain ⟨ha, hb⟩ :=
    c7_push_idempotent_upto_timestamp exCache [⟨1, "a"⟩, ⟨2, "x"⟩] 5 7 ["a", "x"] h1 h2 h3 h4
  exact ⟨h1, h2, h3, h4, ha, hb⟩

/-! ### C4: the interior last-seen invariant under monotone pushes -/

/-- The leaf timestamps contributed by one entry: its own `last_seen` for a
leaf, its subtree's leaf timestamps for an interior entry. -/
def childTimes : Option Node → Int → List Int
  | none, t => [t]
  | some c, _ => c.leafTimes

/-- The last-seen invariant restricted to one entry's child. -/
def childInv : Option Node → Int → Bool
  | none, _ => true
  | some c, t => (maxTime c.leafTimes == some t) && c.last_seen_invariant

theorem leafTimesEntries_cons (v : String) (t : Int) (c : Option Node)
    (rest : List (String × Int × Option Node)) :
    leafTimesEntries ((v, t, c) :: rest) = childTimes c t ++ leafTimesEntries rest := by
  cases c <;> simp [leafTimesEntries, childTimes]

theorem lastSeenInvEntries_cons (v : String) (t : Int) (c : Option Node)
    (rest : List (String × Int × Option Node)) :
    lastSeenInvEntries ((v, t, c) :: rest) = (childInv c t && lastSeenInvEntries rest) := by
  cases c <;> simp [lastSeenInvEntries, childInv, leafTimes_eq, last_seen_invariant_eq,
    Bool.and_assoc]

theorem leafTimes_insertEntries (v : String) (t : Int) (c : Option Node) :
    ∀ es u, u ∈ leafTimesEntries (insertEntries v t c es) ↔
      (u ∈ childTimes c t ∨ u ∈ leafTimesEntries es) := by
  intro es
  induction es with
  | nil =>
    intro u
    simp [insertEntries, leafTimesEntries_cons, leafTimesEntries]
  | cons e rest ih =>
    obtain ⟨w, tw, cw⟩ := e
    intro u
    rw [insertEntries]
    by_cases hv : v < w
    · rw [if_pos hv, leafTimesEntries_cons, leafTimesEntries_cons]
      simp [List.mem_append]
    · rw [if_neg hv, leafTimesEntries_cons, leafTimesEntries_cons]
      simp only [List.mem_append, ih u]
      tauto

theorem leafTimes_updateEntries_sub (v : String) (t : Int) (c : Option Node) :
    ∀ es u, u ∈ leafTimesEntries (updateEntries v t c es) →
      (u ∈ childTimes c t ∨ u ∈ leafTimesEntries es) := by
  intro es
  induction es with
  | nil =>
    intro u h
    simp [updateEntries, leafTimesEntries] at h
  | cons e rest ih =>
    obtain ⟨w, tw, cw⟩ := e
    intro u
    rw [updateEntries]
    by_cases hw : w = v
    · rw [if_pos hw, leafTimesEntries_cons, leafTimesEntries_cons]
      simp only [List.mem_append]
      tauto
    · rw [if_neg hw, leafTimesEntries_cons, leafTimesEntries_cons]
      simp only [List.mem_append]
      intro h
      rcases h with h | h
      · tauto
      · rcases ih u h with h | h <;> tauto

theorem leafTimes_updateEntries_sup (v : String) (t : Int) (c : Option Node) :
    ∀ es, lookupEntries v es ≠ none →
      ∀ u, u ∈ childTimes c t → u ∈ leafTimesEntries (updateEntries v t c es) := by
  intro es
  induction es with
  | nil => intro h; simp [lookupEntries] at h
  | cons e rest ih =>
    obtain ⟨w, tw, cw⟩ := e
    intro hlk u hu
    rw [updateEntries]
    by_cases hw : w = v
    · rw [if_pos hw, leafTimesEntries_cons]
      simp only [List.mem_append]
      exact Or.inl hu
    · rw [if_neg hw, leafTimesEntries_cons]
      simp only [List.mem_append]
      rw [lookupEntries, if_neg hw] at hlk
      exact Or.inr (ih hlk u hu)

theorem inv_insertEntries (v : String) (t : Int) (c : Option Node) :
    ∀ es, childInv c t = true → lastSeenInvEntries es = true →
      lastSeenInvEntries (insertEntries v t c es) = true := by
  intro es
  induction es with
  | nil =>
    intro hc _
    simp [insertEntries, lastSeenInvEntries_cons, lastSeenInvEntries, hc]
  | cons e rest ih =>
    obtain ⟨w, tw, cw⟩ := e
    intro hc hi
    rw [lastSeenInvEntries_cons, Bool.and_eq_true] at hi
    rw [insertEntries]
    by_cases hv : v < w
    · rw [if_pos hv, lastSeenInvEntries_cons, lastSeenInvEntries_cons]
      simp [hc, hi.1, hi.2]
    · rw [if_neg hv, lastSeenInvEntries_cons]
      simp [hi.1, ih hc hi.2]

theorem inv_updateEntries (v : String) (t : Int) (c : Option Node) :
    ∀ es, childInv c t = true → lastSeenInvEntries es = true →
      lastSeenInvEntries (updateEntries v t c es) = true := by
  intro es
  induction es with
  | nil => intro _ _; simp [updateEntries, lastSeenInvEntries]
  | cons e rest ih =>
    obtain ⟨w, tw, cw⟩ := e
    intro hc hi
    rw [lastSeenInvEntries_cons, Bool.and_eq_true] at hi
    rw [updateEntries]
    by_cases hw : w = v
    · rw [if_pos hw, lastSeenInvEntries_cons]
      simp [hc, hi.2]
    · rw [if_neg hw, lastSeenInvEntries_cons]
      simp [hi.1, ih hc hi.2]

theorem uniform_insertEntries (k : Nat) (v : String) (t : Int) (c : Option Node) :
    ∀ es, childOk k c = true → uniformEntries k es = true →
      uniformEntries k (insertEntries v t c es) = true := by
  intro es
  induction es with
  | nil =>
    intro hc _
    simp [insertEntries, uniformEntries_cons, uniformEntries, hc]
  | cons e rest ih =>
    obtain ⟨w, tw, cw⟩ := e
    intro hc hu
    rw [uniformEntries_cons, Bool.and_eq_true] at hu
    rw [insertEntries]
    by_cases hv : v < w
    · rw [if_pos hv, uniformEntries_cons, uniformEntries_cons]
      simp [hc, hu.1, hu.2]
    · rw [if_neg hv, uniformEntries_cons]
      simp [hu.1, ih hc hu.2]

theorem uniform_updateEntries (k : Nat) (v : String) (t : Int) (c : Option Node) :
    ∀ es, childOk k c = true → uniformEntries k es = true →
      uniformEntries k (updateEntries v t c es) = true := by
  intro es
  induction es with
  | nil => intro _ _; simp [updateEntries, uniformEntries]
  | cons e rest ih =>
    obtain ⟨w, tw, cw⟩ := e
    intro hc hu
    rw [uniformEntries_cons, Bool.and_eq_true] at hu
    rw [updateEntries]
    by_cases hw : w = v
    · rw [if_pos hw, uniformEntries_cons]
      simp [hc, hu.2]
    · rw [if_neg hw, uniformEntries_cons]
      simp [hu.1, ih hc hu.2]

theorem inv_of_mem :
    ∀ es, lastSeenInvEntries es = true →
      ∀ v t c, (v, t, c) ∈ es → childInv c t = true := by
  intro es
  induction es with
  | nil => intro _ v t c h; simp at h
  | cons e rest ih =>
    obtain ⟨w, tw, cw⟩ := e
    intro hi v t c h
    rw [lastSeenInvEntries_cons, Bool.and_eq_true] at hi
    rcases List.mem_cons.mp h with h | h
    · cases h; exact hi.1
    · exact ih hi.2 v t c h

theorem leafTimes_of_mem :
    ∀ es (v : String) (t : Int) (c : Option Node), (v, t, c) ∈ es →
      ∀ u, u ∈ childTimes c t → u ∈ leafTimesEntries es := by
  intro es
  induction es with
  | nil => intro v t c h; simp at h
  | cons e rest ih =>
    obtain ⟨w, tw, cw⟩ := e
    intro v t c h u hu
    rw [leafTimesEntries_cons]
    simp only [List.mem_append]
    rcases List.mem_cons.mp h with h | h
    · cases h; exact Or.inl hu
    · exact Or.inr (ih v t c h u hu)

theorem maxTime_none_iff : ∀ l : List Int, maxTime l = none ↔ l = [] := by
  intro l
  cases l with
  | nil => simp [maxTime]
  | cons a rest =>
    rw [maxTime]
    match maxTime rest with
    | none => simp
    | some m => simp

theorem maxTime_mem : ∀ (l : List Int) (m : Int), maxTime l = some m → m ∈ l := by
  intro l
  induction l with
  | nil => intro m h; simp [maxTime] at h
  | cons a rest ih =>
    intro m h
    rw [maxTime] at h
    match hr : maxTime rest with
    | none =>
      rw [hr] at h
      cases h
      simp
    | some m' =>
      rw [hr] at h
      cases h
      rcases le_total a m' with hle | hle
      · rw [max_eq_right hle]
        exact List.mem_cons_of_mem _ (ih m' hr)
      · rw [max_eq_left hle]
        simp

theorem maxTime_ge : ∀ (l : List Int) (m : Int), maxTime l = some m → ∀ u ∈ l, u ≤ m := by
  intro l
  induction l with
  | nil => intro m _ u hu; simp at hu
  | cons a rest ih =>
    intro m h u hu
    rw [maxTime] at h
    match hr : maxTime rest with
    | none =>
      rw [hr] at h
      cases h
      rw [maxTime_none_iff] at hr
      subst hr
      have hua : u = a := by simpa using hu
      simp [hua]
    | some m' =>
      rw [hr] at h
      cases h
      rcases List.mem_cons.mp hu with hu | hu
      · subst hu; exact le_max_left _ _
      · exact le_trans (ih m' hr u hu) (le_max_right _ _)

theorem maxTime_eq_some (t : Int) :
    ∀ l : List Int, t ∈ l → (∀ u ∈ l, u ≤ t) → maxTime l = some t := by
  intro l hmem hb
  match hr : maxTime l with
  | none =>
    rw [maxTime_none_iff] at hr
    subst hr
    simp at hmem
  | some m =>
    have h1 : m ≤ t := hb m (maxTime_mem l m hr)
    have h2 : t ≤ m := maxTime_ge l m hr t hmem
    rw [le_antisymm h1 h2]

theorem push_values_invariant (t : Int) :
    ∀ (vs : List String) (n : Node),
      n.uniform vs.length = true →
      n.last_seen_invariant = true →
      (∀ u ∈ n.leafTimes, u ≤ t) →
      ((n.push_values t vs).1.uniform vs.length = true)
      ∧ ((n.push_values t vs).1.last_seen_invariant = true)
      ∧ (∀ u ∈ (n.push_values t vs).1.leafTimes, u ≤ t)
      ∧ (vs ≠ [] → t ∈ (n.push_values t vs).1.leafTimes) := by
  intro vs
  induction vs with
  | nil =>
    intro n hu hi hb
    rw [Node.push_values]
    exact ⟨hu, hi, hb, fun h => absurd rfl h⟩
  | cons v rest ih =>
    intro n hu hi hb
    rw [uniform_eq] at hu
    rw [last_seen_invariant_eq] at hi
    rw [leafTimes_eq] at hb
    match hl : n.lookup v with
    | none =>
      match rest with
      | [] =>
        have e1 : n.push_values t [v] = (.mk (insertEntries v t none n.entries), true) := by
          rw [Node.push_values, hl]; try rfl
        rw [e1]
        have hco : childOk [v].length (none : Option Node) = true := by
          simp [childOk]
        have hci : childInv (none : Option Node) t = true := by simp [childInv]
        refine ⟨?_, ?_, ?_, ?_⟩
        · rw [uniform_eq]
          exact uniform_insertEntries _ v t none n.entries hco hu
        · rw [last_seen_invariant_eq]
          exact inv_insertEntries v t none n.entries hci hi
        · intro u hmem
          rw [leafTimes_eq] at hmem
          rcases (leafTimes_insertEntries v t none n.entries u).mp hmem with h | h
          · rw [childTimes] at h
            simp at h
            simp [h]
          · exact hb u h
        · intro _
          rw [leafTimes_eq]
          refine (leafTimes_insertEntries v t none n.entries t).mpr (Or.inl ?_)
          simp [childTimes]
      | r :: rs =>
        have hu0 : (Node.mk []).uniform (r :: rs).length = true := by
          rw [uniform_eq]
          simp [Node.entries, uniformEntries]
        have hi0 : (Node.mk []).last_seen_invariant = true := by
          rw [last_seen_invariant_eq]
          simp [Node.entries, lastSeenInvEntries]
        have hb0 : ∀ u ∈ (Node.mk []).leafTimes, u ≤ t := by
          intro u hmem
          rw [leafTimes_eq] at hmem
          simp [Node.entries, leafTimesEntries] at hmem
        obtain ⟨cu, ci, cb, cm⟩ := ih (.mk []) hu0 hi0 hb0
        have cm' := cm (by simp)
        have e1 : n.push_values t (v :: r :: rs)
            = (.mk (insertEntries v t (some ((Node.mk []).push_values t (r :: rs)).1)
                n.entries), true) := by
          rw [Node.push_values, hl]; try rfl
        rw [e1]
        have hco : childOk (v :: r :: rs).length
            (some ((Node.mk []).push_values t (r :: rs)).1) = true := by
          rw [childOk, Bool.and_eq_true]
          constructor
          · simp
          · simpa using cu
        have hci : childInv (some ((Node.mk []).push_values t (r :: rs)).1) t = true := by
          rw [childInv, Bool.and_eq_true]
          exact ⟨by simp [maxTime_eq_some t _ cm' cb], ci⟩
        refine ⟨?_, ?_, ?_, ?_⟩
        · rw [uniform_eq]
          exact uniform_insertEntries _ v t _ n.entries hco hu
        · rw [last_seen_invariant_eq]
          exact inv_insertEntries v t _ n.entries hci hi
        · intro u hmem
          rw [leafTimes_eq] at hmem
          rcases (leafTimes_insertEntries v t _ n.entries u).mp hmem with h | h
          · rw [childTimes] at h
            exact cb u h
          · exact hb u h
        · intro _
          rw [leafTimes_eq]
          exact (leafTimes_insertEntries v t _ n.entries t).mpr (Or.inl (by
            rw [childTimes]; exact cm'))
    | some (t0, none) =>
      have hmem0 := mem_of_lookupEntries v (t0, none) n.entries hl
      have hok := uniform_of_mem _ n.entries hu v t0 none hmem0
      rw [childOk] at hok
      have hk : rest.length = 0 := by simpa using hok
      match rest, hk with
      | [], _ =>
        have e1 : n.push_values t [v] = (.mk (updateEntries v t none n.entries), false) := by
          rw [Node.push_values, hl]; try rfl
        rw [e1]
        have hco : childOk [v].length (none : Option Node) = true := by simp [childOk]
        have hci : childInv (none : Option Node) t = true := by simp [childInv]
        have hlk : lookupEntries v n.entries ≠ none := by
          rw [show lookupEntries v n.entries = some (t0, none) from hl]
          simp
        refine ⟨?_, ?_, ?_, ?_⟩
        · rw [uniform_eq]
          exact uniform_updateEntries _ v t none n.entries hco hu
        · rw [last_seen_invariant_eq]
          exact inv_updateEntries v t none n.entries hci hi
        · intro u hmem
          rw [leafTimes_eq] at hmem
          rcases leafTimes_updateEntries_sub v t none n.entries u hmem with h | h
          · rw [childTimes] at h
            simp at h
            simp [h]
          · exact hb u h
        · intro _
          rw [leafTimes_eq]
          exact leafTimes_updateEntries_sup v t none n.entries hlk t (by simp [childTimes])
    | some (t0, some c) =>
      have hmem0 := mem_of_lookupEntries v (t0, some c) n.entries hl
      have hok := uniform_of_mem _ n.entries hu v t0 (some c) hmem0
      rw [childOk, Bool.and_eq_true] at hok
      have hk : 2 ≤ (v :: rest).length := by
        have := hok.1
        simpa using this
      have hcu : c.uniform rest.length = true := by
        have := hok.2
        simpa using this
      have hrest : rest ≠ [] := by
        cases rest with
        | nil => simp at hk
        | cons a b => simp
      have hinv0 := inv_of_mem n.entries hi v t0 (some c) hmem0
      rw [childInv, Bool.and_eq_true] at hinv0
      have hci0 : c.last_seen_invariant = true := hinv0.2
      have hcb : ∀ u ∈ c.leafTimes, u ≤ t := by
        intro u hmem
        refine hb u ?_
        exact leafTimes_of_mem n.entries v t0 (some c) hmem0 u (by rw [childTimes]; exact hmem)
      obtain ⟨cu, ci, cb, cm⟩ := ih c hcu hci0 hcb
      have cm' := cm hrest
      have e1 : n.push_values t (v :: rest)
          = (.mk (updateEntries v t (some (c.push_values t rest).1) n.entries),
             (c.push_values t rest).2) := by
        cases rest with
        | nil => exact absurd rfl hrest
        | cons r rs => rw [Node.push_values, hl]; try rfl
      rw [e1]
      have hlk : lookupEntries v n.entries ≠ none := by
        rw [show lookupEntries v n.entries = some (t0, some c) from hl]
        simp
      have hco : childOk (v :: rest).length (some (c.push_values t rest).1) = true := by
        rw [childOk, Bool.and_eq_true]
        exact ⟨by simpa using hk, by simpa using cu⟩
      have hci : childInv (some (c.push_values t rest).1) t = true := by
        rw [childInv, Bool.and_eq_true]
        exact ⟨by simp [maxTime_eq_some t _ cm' cb], ci⟩
      refine ⟨?_, ?_, ?_, ?_⟩
      · rw [uniform_eq]
        exact uniform_updateEntries _ v t _ n.entries hco hu
      · rw [last_seen_invariant_eq]
        exact inv_updateEntries v t _ n.entries hci hi
      · intro u hmem
        rw [leafTimes_eq] at hmem
        rcases leafTimes_updateEntries_sub v t _ n.entries u hmem with h | h
        · rw [childTimes] at h
          exact cb u h
        · exact hb u h
      · intro _
        rw [leafTimes_eq]
        exact leafTimes_updateEntries_sup v t _ n.entries hlk t (by
          rw [childTimes]; exact cm')

theorem getValues_length (fields : List Field) :
    ∀ (ids : List Nat) (vs : List String),
      getValues fields ids = some vs → vs.length = ids.length := by
  intro ids
  induction ids with
  | nil => intro vs h; simp only [getValues] at h; cases h; rfl
  | cons a b ih =>
    intro vs h
    simp only [getValues] at h
    match hf : (fields.find? (fun f => f.id == a)).map (fun f => f.value) with
    | none => rw [hf] at h; simp at h
    | some w =>
      rw [hf] at h
      match hg : getValues fields b with
      | none => rw [hg] at h; simp at h
      | some ws =>
        rw [hg] at h
        simp only [Option.map_some] at h
        cases h
        simp [ih ws hg]

/-- A sequence of `MetaCache::push` calls, in order. -/
def MetaCache.push_all (cache : MetaCache) (rows : List Row) : MetaCache :=
  rows.foldl MetaCache.push cache

theorem push_all_invariant :
    ∀ (rows : List Row) (c : MetaCache),
      c.data.uniform c.column_ids.length = true →
      c.data.last_seen_invariant = true →
      (∀ u ∈ c.data.leafTimes, ∀ ro ∈ rows, u ≤ ro.time) →
      (rows.map Row.time).Pairwise (· ≤ ·) →
      ((c.push_all rows).data.uniform (c.push_all rows).column_ids.length = true)
      ∧ ((c.push_all rows).data.last_seen_invariant = true) := by
  intro rows
  induction rows with
  | nil =>
    intro c hu hi _ _
    exact ⟨hu, hi⟩
  | cons r rest ih =>
    intro c hu hi hb hp
    have hstep : c.push_all (r :: rest) = (c.push r).push_all rest := by
      simp [MetaCache.push_all]
    rw [hstep]
    simp only [List.map_cons, List.pairwise_cons] at hp
    match hv : getValues r.fields c.column_ids with
    | none =>
      have e : c.push r = c := by
        rw [MetaCache.push, hv]
      rw [e]
      refine ih c hu hi ?_ hp.2
      intro u hmem ro hro
      exact hb u hmem ro (List.mem_cons_of_mem _ hro)
    | some values =>
      have hlen := getValues_length r.fields c.column_ids values hv
      have hu' : c.data.uniform values.length = true := by rw [hlen]; exact hu
      obtain ⟨pu, pi, pb, _⟩ := push_values_invariant r.time values c.data hu' hi
        (fun u hmem => hb u hmem r (List.mem_cons_self r rest))
      have hdata : (c.push r).data = (c.data.push_values r.time values).1 := by
        rw [MetaCache.push, hv]
      have hcols : (c.push r).column_ids = c.column_ids := by
        rw [MetaCache.push, hv]
      refine ih (c.push r) ?_ ?_ ?_ hp.2
      · rw [hcols, hdata, ← hlen]
        exact pu
      · rw [hdata]
        exact pi
      · intro u hmem ro hro
        rw [hdata] at hmem
        refine le_trans (pb u hmem) ?_
        exact hp.1 ro.time (List.mem_map_of_mem Row.time hro)

/-- Claim C4 (amended): after any sequence of `push` operations whose row
timestamps are non-decreasing in push order, starting from a freshly created
cache, every interior entry's `last_seen_ns` equals the maximum
`last_seen_ns` over all leaf entries in its subtree. (The original claim,
which allowed arbitrary non-monotone timestamps, is refuted by
`c4_invariant_counterexample`: `push` overwrites `last_seen` on the path with
the row's time even when that time is older than the subtree maximum.) -/
theorem c4_interior_last_seen_monotone (maxc : Nat) (maxa : Int)
    (schema : List SchemaField) (ids : List Nat) (rows : List Row)
    (hmono : (rows.map Row.time).Pairwise (· ≤ ·)) :
    ((MetaCache.push_all ⟨maxc, maxa, schema, 0, ids, .mk []⟩ rows).data).last_seen_invariant
      = true := by
  refine (push_all_invariant rows ⟨maxc, maxa, schema, 0, ids, .mk []⟩ ?_ ?_ ?_ hmono).2
  · rw [uniform_eq]
    simp [Node.entries, uniformEntries]
  · rw [last_seen_invariant_eq]
    simp [Node.entries, lastSeenInvEntries]
  · intro u hmem
    rw [leafTimes_eq] at hmem
    simp [Node.entries, leafTimesEntries] at hmem

/-- Witness for C4 (amended) at two monotone pushes `(a,x,1000)` then
`(a,y,2000)` into a fresh two-column cache. -/
theorem c4_interior_last_seen_monotone_witness :
    (([⟨1000, [⟨1, "a"⟩, ⟨2, "x"⟩]⟩, ⟨2000, [⟨1, "a"⟩, ⟨2, "y"⟩]⟩] : List Row).map
        Row.time).Pairwise (· ≤ ·)
      ∧ ((MetaCache.push_all ⟨10, 100, [], 0, [1, 2], .mk []⟩
          [⟨1000, [⟨1, "a"⟩, ⟨2, "x"⟩]⟩,
           ⟨2000, [⟨1, "a"⟩, ⟨2, "y"⟩]⟩]).data).last_seen_invariant = true := by
  have hp : (([⟨1000, [⟨1, "a"⟩, ⟨2, "x"⟩]⟩, ⟨2000, [⟨1, "a"⟩, ⟨2, "y"⟩]⟩] : List Row).map
      Row.time).Pairwise (· ≤ ·) := by
    simp [List.pairwise_cons]
  exact ⟨hp, c4_interior_last_seen_monotone 10 100 [] [1, 2] _ hp⟩

/-! ### C8: predicate monotonicity -/

theorem get?_succ (r : List String) (j : Nat) : r.get? (j + 1) = (r.drop 1).get? j := by
  cases r <;> simp

theorem colsOf_length (d : Nat) (rows : List (List String)) : (colsOf d rows).length = d := by
  simp [colsOf]

theorem colsOf_nil (d : Nat) : colsOf d [] = List.replicate d [] := by
  simp [colsOf]

theorem zipWith_append_replicate_nil :
    ∀ bs : List (List String), List.zipWith (· ++ ·) bs (List.replicate bs.length []) = bs := by
  intro bs
  induction bs with
  | nil => simp
  | cons b rest ih => simp [List.replicate_succ, ih]

theorem colsOf_cons_nil_row (d : Nat) (rows : List (List String)) :
    colsOf d ([] :: rows) = colsOf d rows := by
  simp [colsOf, List.filterMap_cons]

theorem zipWith_map_both {α β γ δ : Type} (l : List α) (f : α → β) (g : α → γ)
    (h : β → γ → δ) :
    List.zipWith h (l.map f) (l.map g) = l.map (fun x => h (f x) (g x)) := by
  induction l with
  | nil => simp
  | cons x xs ih => simp [ih]

theorem colsOf_append (d : Nat) (rows1 rows2 : List (List String)) :
    colsOf d (rows1 ++ rows2)
      = List.zipWith (· ++ ·) (colsOf d rows1) (colsOf d rows2) := by
  rw [colsOf, colsOf, colsOf, zipWith_map_both]
  refine List.map_congr_left ?_
  intro j _
  simp [List.filterMap_append]

theorem zipWith_append_assoc :
    ∀ xs ys zs : List (List String),
      List.zipWith (· ++ ·) (List.zipWith (· ++ ·) xs ys) zs
        = List.zipWith (· ++ ·) xs (List.zipWith (· ++ ·) ys zs) := by
  intro xs
  induction xs with
  | nil => intro ys zs; simp
  | cons x xs ih =>
    intro ys zs
    cases ys with
    | nil => simp
    | cons y ys =>
      cases zs with
      | nil => simp
      | cons z zs => simp [ih, List.append_assoc]

theorem filterMap_get_succ (j : Nat) :
    ∀ rows : List (List String),
      rows.filterMap (fun r => r.get? (j + 1))
        = (rows.map (fun r => r.drop 1)).filterMap (fun r => r.get? j) := by
  intro rows
  induction rows with
  | nil => simp
  | cons r rs ih =>
    rw [List.map_cons, List.filterMap_cons, List.filterMap_cons, ih, get?_succ]

theorem colsOf_succ (d : Nat) (rows : List (List String)) :
    colsOf (d + 1) rows
      = rows.filterMap (fun r => r.get? 0)
        :: colsOf d (rows.map (fun r => r.drop 1)) := by
  rw [colsOf, colsOf, List.range_succ_eq_map, List.map_cons, List.map_map]
  refine congrArg _ ?_
  refine List.map_congr_left ?_
  intro j _
  show rows.filterMap (fun r => r.get? (j + 1))
    = (rows.map (fun r => r.drop 1)).filterMap (fun r => r.get? j)
  exact filterMap_get_succ j rows

theorem filterMap_get0_cons_map (v : String) :
    ∀ rows : List (List String),
      (rows.map (fun r => v :: r)).filterMap (fun r => r.get? 0)
        = List.replicate rows.length v := by
  intro rows
  induction rows with
  | nil => rfl
  | cons r rs ih =>
    rw [List.map_cons, List.filterMap_cons]
    rw [show ((v :: r).get? 0) = some v from rfl]
    rw [ih]
    rfl

theorem map_drop1_cons_map (v : String) :
    ∀ rows : List (List String),
      (rows.map (fun r => v :: r)).map (fun r => r.drop 1) = rows := by
  intro rows
  induction rows with
  | nil => rfl
  | cons r rs ih =>
    simp only [List.map_cons]
    rw [ih]
    rfl

theorem foldl_evalStepWith_spec (g : Node → List (List String) → Nat × List (List String))
    (rows_of : Node → List (List String)) (d : Nat)
    (hg : ∀ (child : Node) (bs0 : List (List String)), bs0.length = d →
      g child bs0 = ((rows_of child).length,
        List.zipWith (· ++ ·) bs0 (colsOf d (rows_of child)))) :
    ∀ (cands : List (String × Option Node)) (tot0 : Nat) (b0 : List String)
      (bs0 : List (List String)), bs0.length = d →
      cands.foldl (evalStepWith g) (tot0, b0, bs0)
        = (tot0 + (cands.flatMap (candRows rows_of)).length,
           b0 ++ (cands.flatMap (candRows rows_of)).filterMap (fun r => r.get? 0),
           List.zipWith (· ++ ·) bs0
             (colsOf d ((cands.flatMap (candRows rows_of)).map (fun r => r.drop 1)))) := by
  intro cands
  induction cands with
  | nil =>
    intro tot0 b0 bs0 hlen
    subst hlen
    simp [colsOf_nil, zipWith_append_replicate_nil]
  | cons vn cs ih =>
    obtain ⟨v, c⟩ := vn
    intro tot0 b0 bs0 hlen
    rw [List.foldl_cons]
    cases c with
    | none =>
      have hstep : evalStepWith g (tot0, b0, bs0) (v, none) = (tot0 + 1, b0 ++ [v], bs0) := rfl
      rw [hstep, ih (tot0 + 1) (b0 ++ [v]) bs0 hlen]
      rw [List.flatMap_cons]
      rw [show candRows rows_of (v, none) = [[v]] from rfl]
      refine congrArg₂ _ ?_ (congrArg₂ _ ?_ ?_)
      · simp
        omega
      · simp [List.filterMap_cons, List.append_assoc]
      · rw [List.map_append]
        rw [show ([[v]] : List (List String)).map (fun r => r.drop 1) = [[]] from rfl]
        rw [show ([[]] : List (List String)) ++ (cs.flatMap (candRows rows_of)).map
            (fun r => r.drop 1) = [] :: (cs.flatMap (candRows rows_of)).map
            (fun r => r.drop 1) from rfl]
        rw [colsOf_cons_nil_row]
    | some child =>
      have hstep : evalStepWith g (tot0, b0, bs0) (v, some child)
          = (tot0 + (rows_of child).length,
             b0 ++ List.replicate (rows_of child).length v,
             List.zipWith (· ++ ·) bs0 (colsOf d (rows_of child))) := by
        simp only [evalStepWith]
        rw [hg child bs0 hlen]
        by_cases hpos : 0 < (rows_of child).length
        · simp [hpos]
        · have hnil : rows_of child = [] := by
            rw [← List.length_eq_zero]
            omega
          rw [hnil, colsOf_nil, ← hlen, zipWith_append_replicate_nil]
          simp
      rw [hstep, ih _ _ _ (by simp [colsOf_length, hlen])]
      rw [List.flatMap_cons]
      rw [show candRows rows_of (v, some child)
        = (rows_of child).map (fun r => v :: r) from rfl]
      refine congrArg₂ _ ?_ (congrArg₂ _ ?_ ?_)
      · simp
        omega
      · rw [List.filterMap_append, filterMap_get0_cons_map, List.append_assoc]
      · rw [List.map_append, map_drop1_cons_map, colsOf_append, zipWith_append_assoc]

theorem evaluate_predicates_eq_path_rows (exp : Int) :
    ∀ (preds : List (Option Predicate)) (node : Node) (builders : List (List String)),
      builders.length = preds.length →
      Node.evaluate_predicates exp preds node builders
        = ((Node.path_rows exp preds node).length,
           List.zipWith (· ++ ·) builders
             (colsOf preds.length (Node.path_rows exp preds node))) := by
  intro preds
  induction preds with
  | nil =>
    intro node builders hlen
    have hb : builders = [] := List.length_eq_zero.mp (by simpa using hlen)
    subst hb
    simp [Node.evaluate_predicates, Node.path_rows, colsOf]
  | cons p ps ih =>
    intro node builders hlen
    match builders with
    | [] => simp at hlen
    | b :: bs =>
      have hbs : bs.length = ps.length := by simpa using hlen
      simp only [Node.evaluate_predicates]
      rw [foldl_evalStepWith_spec
        (fun child bs => Node.evaluate_predicates exp ps child bs)
        (fun child => Node.path_rows exp ps child) ps.length
        (fun child bs0 h => ih child bs0 h)
        (candidateList exp p node) 0 b bs hbs]
      rw [show Node.path_rows exp (p :: ps) node
        = (candidateList exp p node).flatMap
            (candRows (fun child => Node.path_rows exp ps child)) from by
          rw [Node.path_rows]]
      rw [show (p :: ps).length = ps.length + 1 from rfl, colsOf_succ]
      simp

theorem candidateList_mem_entries (exp : Int) (p : Option Predicate) (node : Node) :
    ∀ vc ∈ candidateList exp p node, ∃ t : Int, (vc.1, t, vc.2) ∈ node.entries := by
  intro vc hvc
  match p with
  | none =>
    rw [candidateList] at hvc
    simp only [List.mem_map, List.mem_filter] at hvc
    obtain ⟨e, ⟨he, _⟩, hvc⟩ := hvc
    obtain ⟨v, t, c⟩ := e
    cases hvc
    exact ⟨t, he⟩
  | some (.In l) =>
    rw [candidateList, Node.evaluate_predicate] at hvc
    simp only [List.mem_filterMap] at hvc
    obtain ⟨v, _, hb⟩ := hvc
    match hl : node.lookup v with
    | none => rw [hl] at hb; simp at hb
    | some (t, c) =>
      rw [hl] at hb
      simp only [Option.some_bind] at hb
      by_cases ht : exp < t
      · rw [if_pos ht] at hb
        cases hb
        exact ⟨t, mem_of_lookupEntries v (t, c) node.entries hl⟩
      · rw [if_neg ht] at hb
        simp at hb
  | some (.NotIn l) =>
    rw [candidateList, Node.evaluate_predicate] at hvc
    simp only [List.mem_map, List.mem_filter] at hvc
    obtain ⟨e, ⟨he, _⟩, hvc⟩ := hvc
    obtain ⟨v, t, c⟩ := e
    cases hvc
    exact ⟨t, he⟩

theorem path_rows_mono (exp : Int) :
    ∀ (ps qs : List (Option Predicate)),
      List.Forall₂ (fun p q => ∀ (node : Node) (vc : String × Option Node),
        vc ∈ candidateList exp p node → vc ∈ candidateList exp q node) ps qs →
      ∀ (node : Node) (r : List String),
        r ∈ Node.path_rows exp ps node → r ∈ Node.path_rows exp qs node := by
  intro ps qs h
  induction h with
  | nil =>
    intro node r hr
    rw [Node.path_rows] at hr
    simp at hr
  | cons hpq htail ih =>
    intro node r hr
    rw [Node.path_rows] at hr ⊢
    simp only [List.mem_flatMap] at hr ⊢
    obtain ⟨vn, hvn, hr⟩ := hr
    refine ⟨vn, hpq node vn hvn, ?_⟩
    obtain ⟨v, c⟩ := vn
    cases c with
    | none => exact hr
    | some child =>
      simp only [candRows, List.mem_map] at hr ⊢
      obtain ⟨r', hr', rfl⟩ := hr
      exact ⟨r', ih child r' hr', rfl⟩

theorem candidate_mono_In (exp : Int) (S1 S2 : List String) (hS : S1 ⊆ S2) :
    ∀ (node : Node) (vc : String × Option Node),
      vc ∈ candidateList exp (some (.In S1)) node →
      vc ∈ candidateList exp (some (.In S2)) node := by
  intro node vc h
  rw [candidateList, Node.evaluate_predicate] at h ⊢
  simp only [List.mem_filterMap] at h ⊢
  obtain ⟨v, hv, hb⟩ := h
  exact ⟨v, hS hv, hb⟩

theorem candidate_mono_NotIn (exp : Int) (S1 S2 : List String) (hS : S1 ⊆ S2) :
    ∀ (node : Node) (vc : String × Option Node),
      vc ∈ candidateList exp (some (.NotIn S2)) node →
      vc ∈ candidateList exp (some (.NotIn S1)) node := by
  intro node vc h
  rw [candidateList, Node.evaluate_predicate] at h ⊢
  simp only [List.mem_map, List.mem_filter, Bool.and_eq_true] at h ⊢
  obtain ⟨e, ⟨he, hexp, hcon⟩, heq⟩ := h
  refine ⟨e, ⟨he, hexp, ?_⟩, heq⟩
  have hnotin : e.1 ∉ S2 := by simpa using hcon
  simp
  exact fun hmem => hnotin (hS hmem)

theorem forall2_map_map {α β γ : Type} (R : β → γ → Prop) (f : α → β) (g : α → γ) :
    ∀ l : List α, (∀ a ∈ l, R (f a) (g a)) → List.Forall₂ R (l.map f) (l.map g) := by
  intro l
  induction l with
  | nil => intro _; exact .nil
  | cons a l ih =>
    intro h
    exact .cons (h a (by simp)) (ih (fun b hb => h b (by simp [hb])))

theorem lookupPredicate_single (cid : Nat) (P : Predicate) (id : Nat) :
    lookupPredicate [(cid, P)] id = if cid == id then some P else none := by
  rw [lookupPredicate]
  by_cases h : cid == id
  · simp [List.find?, h]
  · simp [List.find?, h]

theorem path_rows_length_uniform (exp : Int) :
    ∀ (ps : List (Option Predicate)) (node : Node), node.uniform ps.length = true →
      ∀ r ∈ Node.path_rows exp ps node, r.length = ps.length := by
  intro ps
  induction ps with
  | nil =>
    intro node _ r hr
    rw [Node.path_rows] at hr
    simp at hr
  | cons p ps ih =>
    intro node huni r hr
    rw [uniform_eq] at huni
    rw [Node.path_rows] at hr
    simp only [List.mem_flatMap] at hr
    obtain ⟨vn, hvn, hr⟩ := hr
    obtain ⟨t, hmem⟩ := candidateList_mem_entries exp p node vn hvn
    have hok := uniform_of_mem _ node.entries huni vn.1 t vn.2 hmem
    obtain ⟨v, c⟩ := vn
    cases c with
    | none =>
      rw [childOk] at hok
      have hone : (p :: ps).length = 1 := by simpa using hok
      simp only [candRows, List.mem_singleton] at hr
      rw [hr, hone]
      rfl
    | some child =>
      rw [childOk, Bool.and_eq_true] at hok
      simp only [candRows, List.mem_map] at hr
      obtain ⟨r', hr', rfl⟩ := hr
      have hcu : child.uniform ps.length = true := by
        have := hok.2
        simpa using this
      simp [ih child hcu r' hr']

theorem filterMap_get_eq_map_getD (j K : Nat) (hj : j < K) :
    ∀ rows : List (List String), (∀ r ∈ rows, r.length = K) →
      rows.filterMap (fun r => r.get? j) = rows.map (fun r => r.getD j "") := by
  intro rows
  induction rows with
  | nil => intro _; rfl
  | cons r rs ih =>
    intro h
    rw [List.filterMap_cons, List.map_cons]
    have h1 : j < r.length := by rw [h r (by simp)]; exact hj
    have hr : r.get? j = some (r.getD j "") := by
      rw [List.getD_eq_getElem?_getD, List.get?_eq_getElem?, List.getElem?_eq_getElem h1]
      rfl
    rw [hr, ih (fun a ha => h a (by simp [ha]))]

theorem batch_rows_colsOf (K : Nat) (rows : List (List String))
    (hK : ∀ r ∈ rows, r.length = K) :
    batch_rows (rows.length, colsOf K rows) = rows := by
  rw [batch_rows]
  refine List.ext_getElem? ?_
  intro i
  rw [List.getElem?_map]
  by_cases hi : i < rows.length
  · rw [List.getElem?_range hi, List.getElem?_eq_getElem hi]
    simp only [Option.map_some']
    refine congrArg some ?_
    refine List.ext_getElem? ?_
    intro j
    rw [List.getElem?_map]
    by_cases hj : j < K
    · have hcol : (colsOf K rows)[j]? = some (rows.filterMap (fun r => r.get? j)) := by
        rw [colsOf, List.getElem?_map, List.getElem?_range hj]
        rfl
      rw [hcol]
      simp only [Option.map_some']
      rw [filterMap_get_eq_map_getD j K hj rows hK]
      have hmap : (rows.map (fun r => r.getD j "")).getD i "" = rows[i].getD j "" := by
        rw [List.getD_eq_getElem?_getD, List.getElem?_map, List.getElem?_eq_getElem hi]
        rfl
      rw [hmap]
      have hjlen : j < rows[i].length := by
        rw [hK rows[i] (List.getElem_mem hi)]
        exact hj
      rw [List.getD_eq_getElem?_getD, List.getElem?_eq_getElem hjlen]
      rfl
    · have hc : (colsOf K rows)[j]? = none := by
        rw [List.getElem?_eq_none]
        rw [colsOf_length]
        omega
      have hr : rows[i][j]? = none := by
        rw [List.getElem?_eq_none]
        rw [hK rows[i] (List.getElem_mem hi)]
        omega
      rw [hc, hr]
      rfl
  · have h1 : (List.range rows.length)[i]? = none := by
      rw [List.getElem?_eq_none]
      simpa using hi
    have h2 : rows[i]? = none := by
      rw [List.getElem?_eq_none]
      omega
    rw [h1, h2]
    rfl

theorem zipWith_empty_builders :
    ∀ (bs cols : List (List String)), bs.length = cols.length → (∀ b ∈ bs, b = []) →
      List.zipWith (· ++ ·) bs cols = cols := by
  intro bs
  induction bs with
  | nil =>
    intro cols hlen _
    have : cols = [] := List.length_eq_zero.mp (by simpa using hlen.symm)
    subst this
    rfl
  | cons b rest ih =>
    intro cols hlen hnil
    match cols with
    | [] => simp at hlen
    | c :: cs =>
      rw [List.zipWith_cons_cons]
      rw [hnil b (by simp), ih cs (by simpa using hlen) (fun x hx => hnil x (by simp [hx]))]
      rfl

/-- The record batch produced for a single-predicate query, described through
the DFS path rows of the tree. -/
theorem to_record_batch_single (cache : MetaCache) (now : Int) (cid : Nat) (P : Predicate) :
    cache.to_record_batch [(cid, P)] now
      = ((Node.path_rows (cache.expired_time_ns now)
            (cache.column_ids.map (fun id => lookupPredicate [(cid, P)] id))
            cache.data).length,
         colsOf cache.column_ids.length
           (Node.path_rows (cache.expired_time_ns now)
             (cache.column_ids.map (fun id => lookupPredicate [(cid, P)] id))
             cache.data)) := by
  rw [MetaCache.to_record_batch]
  rw [evaluate_predicates_eq_path_rows _ _ _ _ (by simp)]
  rw [zipWith_empty_builders _ _ (by simp [colsOf_length]) (by simp)]
  rw [show (cache.column_ids.map (fun id => lookupPredicate [(cid, P)] id)).length
    = cache.column_ids.length from by simp]

/-- Claim C8: for any cache state whose tree is uniform of the configured
depth (every reachable state is), any column id, and any value sets
`S1 ⊆ S2`: every row of the batch produced with the single predicate
`In S1` on that column also appears in the batch produced with `In S2`, and
every row produced with `NotIn S2` also appears in the batch produced with
`NotIn S1`. -/
theorem c8_predicate_monotonicity (cache : MetaCache) (now : Int) (cid : Nat)
    (S1 S2 : List String)
    (huni : cache.data.uniform cache.column_ids.length = true)
    (hS : S1 ⊆ S2) :
    (∀ r ∈ batch_rows (cache.to_record_batch [(cid, .In S1)] now),
        r ∈ batch_rows (cache.to_record_batch [(cid, .In S2)] now))
    ∧ (∀ r ∈ batch_rows (cache.to_record_batch [(cid, .NotIn S2)] now),
        r ∈ batch_rows (cache.to_record_batch [(cid, .NotIn S1)] now)) := by
  have hrows : ∀ P : Predicate,
      batch_rows (cache.to_record_batch [(cid, P)] now)
        = Node.path_rows (cache.expired_time_ns now)
            (cache.column_ids.map (fun id => lookupPredicate [(cid, P)] id))
            cache.data := by
    intro P
    rw [to_record_batch_single]
    refine batch_rows_colsOf _ _ ?_
    refine fun r hr => ?_
    have huni' : cache.data.uniform
        (cache.column_ids.map (fun id => lookupPredicate [(cid, P)] id)).length = true := by
      simpa using huni
    have := path_rows_length_uniform (cache.expired_time_ns now) _ cache.data huni' r hr
    simpa using this
  have hf : ∀ (P1 P2 : Predicate),
      (∀ (node : Node) (vc : String × Option Node),
        vc ∈ candidateList (cache.expired_time_ns now) (some P1) node →
        vc ∈ candidateList (cache.expired_time_ns now) (some P2) node) →
      List.Forall₂ (fun p q => ∀ (node : Node) (vc : String × Option Node),
          vc ∈ candidateList (cache.expired_time_ns now) p node →
          vc ∈ candidateList (cache.expired_time_ns now) q node)
        (cache.column_ids.map (fun id => lookupPredicate [(cid, P1)] id))
        (cache.column_ids.map (fun id => lookupPredicate [(cid, P2)] id)) := by
    intro P1 P2 hP
    refine forall2_map_map _ _ _ cache.column_ids ?_
    intro id _
    rw [lookupPredicate_single, lookupPredicate_single]
    by_cases h : cid == id
    · rw [if_pos h, if_pos h]
      exact hP
    · rw [if_neg h, if_neg h]
      exact fun node vc hvc => hvc
  constructor
  · rw [hrows, hrows]
    exact fun r hr => path_rows_mono _ _ _
      (hf (.In S1) (.In S2) (candidate_mono_In _ S1 S2 hS)) cache.data r hr
  · rw [hrows, hrows]
    exact fun r hr => path_rows_mono _ _ _
      (hf (.NotIn S2) (.NotIn S1) (candidate_mono_NotIn _ S1 S2 hS)) cache.data r hr

/-- Witness for C8 at the scenario-(1) cache with `S1 = {a} ⊆ S2 = {a, b}`. -/
theorem c8_predicate_monotonicity_witness :
    exState.data.uniform exState.column_ids.length = true
      ∧ (["a"] : List String) ⊆ ["a", "b"]
      ∧ (∀ r ∈ batch_rows (exState.to_record_batch [(1, .In ["a"])] 3600000000000),
          r ∈ batch_rows (exState.to_record_batch [(1, .In ["a", "b"])] 3600000000000))
      ∧ (∀ r ∈ batch_rows (exState.to_record_batch [(1, .NotIn ["a", "b"])] 3600000000000),
          r ∈ batch_rows (exState.to_record_batch [(1, .NotIn ["a"])] 3600000000000)) := by
  have huni : exState.data.uniform exState.column_ids.length = true := by
    rw [uniform_eq]
    simp +decide [exState, exCache, exRow1, exRow2, exRow3, MetaCache.push, getValues,
      List.find?, Node.push_values, Node.lookup, Node.entries, lookupEntries, insertEntries,
      updateEntries, uniformEntries, Node.uniform]
  have hS : (["a"] : List String) ⊆ ["a", "b"] := by
    intro x hx
    simp at hx
    simp [hx]
  obtain ⟨h1, h2⟩ :=
    c8_predicate_monotonicity exState 3600000000000 1 ["a"] ["a", "b"] huni hS
  exact ⟨huni, hS, h1, h2⟩

end MetaCacheVerif
